import Mathlib

/-!
Verification of the node-graph editor core (src/app.rs).

The Rust source is shallowly embedded over the rationals: every `f32`
coordinate becomes a `ℚ`.  All comparisons the source makes between a
Euclidean *distance* and a nonnegative bound `r` are rendered as the exact
equivalent comparison between the *squared* distance and `r^2` (for a
possibly negative bound `t`, `dist ≤ t` is rendered as `0 ≤ t ∧ distSq ≤ t^2`,
which is the exact square-root-free translation), so no square roots are
needed and every definition stays executable and decidable.

Rust `String`s are embedded as `List Char`; `Vec<T>` as `List T`;
`Option<T>` as `Option T`; `usize` node ids as `ℕ`.
-/

namespace NodeGraph

/-- Model of egui `Pos2` (a 2D point). -/
structure Pos2 where
  x : ℚ
  y : ℚ
deriving DecidableEq, Repr

/-- Model of egui `Vec2` (a 2D vector / extent). -/
structure Vec2 where
  x : ℚ
  y : ℚ
deriving DecidableEq, Repr

/-- Point plus vector (egui `Pos2 + Vec2`). -/
def padd (p : Pos2) (v : Vec2) : Pos2 := ⟨p.x + v.x, p.y + v.y⟩

/-- Point minus vector (egui `Pos2 - Vec2`). -/
def psubv (p : Pos2) (v : Vec2) : Pos2 := ⟨p.x - v.x, p.y - v.y⟩

/-- Point minus point, giving a vector (egui `Pos2 - Pos2`). -/
def psub (p q : Pos2) : Vec2 := ⟨p.x - q.x, p.y - q.y⟩

/-- Vector addition. -/
def vadd (v w : Vec2) : Vec2 := ⟨v.x + w.x, v.y + w.y⟩

/-- Vector negation. -/
def vneg (v : Vec2) : Vec2 := ⟨-v.x, -v.y⟩

/-- Scalar times vector (egui `t * Vec2`). -/
def vsmul (t : ℚ) (v : Vec2) : Vec2 := ⟨t * v.x, t * v.y⟩

/-- Dot product (egui `Vec2::dot`). -/
def vdot (v w : Vec2) : ℚ := v.x * w.x + v.y * w.y

/-- Squared length (egui `Vec2::length_sq`). -/
def vlen2 (v : Vec2) : ℚ := vdot v v

/-- Squared Euclidean distance between two points.  The source compares
`a.distance(b)` against nonnegative bounds; we compare `distSq` against the
squared bound, which is equivalent. -/
def distSq (p q : Pos2) : ℚ := vlen2 (psub p q)

/-- Model of egui `Rect`, held as min/max corners. -/
structure Rect where
  min : Pos2
  max : Pos2
deriving DecidableEq, Repr

/-- egui `Rect::from_min_size`. -/
def Rect.from_min_size (m : Pos2) (size : Vec2) : Rect := ⟨m, padd m size⟩

/-- egui `Rect::left`. -/
def Rect.left (r : Rect) : ℚ := r.min.x

/-- egui `Rect::right`. -/
def Rect.right (r : Rect) : ℚ := r.max.x

/-- egui `Rect::height`. -/
def Rect.height (r : Rect) : ℚ := r.max.y - r.min.y

/-- egui `Rect::center`. -/
def Rect.center (r : Rect) : Pos2 := ⟨(r.min.x + r.max.x) / 2, (r.min.y + r.max.y) / 2⟩

/-- egui `Rect::contains` (inclusive on all four sides). -/
def Rect.contains (r : Rect) (p : Pos2) : Bool :=
  decide (r.min.x ≤ p.x ∧ p.x ≤ r.max.x ∧ r.min.y ≤ p.y ∧ p.y ≤ r.max.y)

/-- `const NODE_SIZE: Vec2 = Vec2::new(180.0, 130.0)`. -/
def NODE_SIZE : Vec2 := ⟨180, 130⟩

/-- `const HEADER_HEIGHT: f32 = 28.0`. -/
def HEADER_HEIGHT : ℚ := 28

/-- `const PORT_HIT_RADIUS: f32 = 10.0`. -/
def PORT_HIT_RADIUS : ℚ := 10

/-- `const NODE_INNER_PADDING_Y: f32 = 8.0`. -/
def NODE_INNER_PADDING_Y : ℚ := 8

/-- `const PORT_OUTSET: f32 = 8.0`. -/
def PORT_OUTSET : ℚ := 8

/-- `enum PortKind { Input, Output }`. -/
inductive PortKind where
  | Input
  | Output
deriving DecidableEq, Repr

/-- `struct Node` from app.rs (drawing-only fields kept verbatim). -/
structure Node where
  id : ℕ
  title : List Char
  content : List Char
  position : Pos2
  size : Vec2
deriving DecidableEq, Repr

/-- `struct DragLinkState`. -/
structure DragLinkState where
  from_node : ℕ
  from_port : PortKind
  current_pos : Pos2
deriving DecidableEq, Repr

/-- `struct Connection`. -/
structure Connection where
  from_node_id : ℕ
  to_node_id : ℕ
deriving DecidableEq, Repr

/-- `struct NodeGraphApp`: the whole runtime state. -/
structure NodeGraphApp where
  nodes : List Node
  connections : List Connection
  pan_offset : Vec2
  dragging_canvas : Bool
  dragging_link : Option DragLinkState
  next_node_id : ℕ
deriving DecidableEq, Repr

/-- `impl Default for NodeGraphApp`: three demo nodes 0,1,2 and the two demo
connections 0→1 and 1→2. -/
def NodeGraphApp.default : NodeGraphApp :=
  { nodes :=
      [ { id := 0, title := "Input".data, content := "这里是节点说明".data
        , position := ⟨100, 100⟩, size := NODE_SIZE }
      , { id := 1, title := "Deal".data, content := "这里是节点说明".data
        , position := ⟨340, 140⟩, size := NODE_SIZE }
      , { id := 2, title := "Output".data, content := "这里是节点说明".data
        , position := ⟨580, 100⟩, size := NODE_SIZE } ]
  , connections := [⟨0, 1⟩, ⟨1, 2⟩]
  , pan_offset := ⟨0, 0⟩
  , dragging_canvas := false
  , dragging_link := none
  , next_node_id := 3 }

/-- `fn add_node(&mut self)`: allocate the next id, bump the counter, append a
node with a staggered position. -/
def NodeGraphApp.add_node (s : NodeGraphApp) : NodeGraphApp :=
  let id := s.next_node_id
  { s with
    next_node_id := id + 1
    nodes := s.nodes ++
      [ { id := id, title := ("Node " ++ toString id).data
        , position := ⟨220 + id * 24, 220⟩
        , content := ".....".data, size := NODE_SIZE } ] }

/-- `fn node_by_id(&self, id) -> Option<&Node>`: linear scan by id. -/
def NodeGraphApp.node_by_id (s : NodeGraphApp) (id : ℕ) : Option Node :=
  s.nodes.find? fun node => node.id == id

/-- `fn node_rect_screen`: screen = world + pan_offset. -/
def NodeGraphApp.node_rect_screen (s : NodeGraphApp) (node : Node) : Rect :=
  Rect.from_min_size (padd node.position s.pan_offset) node.size

/-- `fn port_pos_screen`: Input at the left-middle minus the outset, Output at
the right-middle plus the outset. -/
def NodeGraphApp.port_pos_screen (s : NodeGraphApp) (node : Node) (port : PortKind) : Pos2 :=
  let rect := s.node_rect_screen node
  match port with
  | PortKind.Input => ⟨rect.left - PORT_OUTSET, rect.center.y⟩
  | PortKind.Output => ⟨rect.right + PORT_OUTSET, rect.center.y⟩

/-- The per-node closure of `fn port_at`'s `find_map`: the Input port is
tested first, then the Output port.  The source's
`distance(pointer) ≤ PORT_HIT_RADIUS` is the squared comparison here. -/
def portCheck (s : NodeGraphApp) (pointer_pos : Pos2) (node : Node) : Option (ℕ × PortKind) :=
  let input := s.port_pos_screen node PortKind.Input
  if distSq input pointer_pos ≤ PORT_HIT_RADIUS ^ 2 then
    some (node.id, PortKind.Input)
  else
    let output := s.port_pos_screen node PortKind.Output
    if distSq output pointer_pos ≤ PORT_HIT_RADIUS ^ 2 then
      some (node.id, PortKind.Output)
    else
      none

/-- `fn port_at`: first node (in collection order) with a port within
`PORT_HIT_RADIUS` of the pointer. -/
def NodeGraphApp.port_at (s : NodeGraphApp) (pointer_pos : Pos2) : Option (ℕ × PortKind) :=
  s.nodes.findSome? (portCheck s pointer_pos)

/-- `fn is_pointer_over_node`: is the pointer inside any node's screen rect. -/
def NodeGraphApp.is_pointer_over_node (s : NodeGraphApp) (pointer_pos : Pos2) : Bool :=
  s.nodes.any fun node => (s.node_rect_screen node).contains pointer_pos

/-- `fn cubic_bezier_point`: standard Bernstein-basis cubic bezier. -/
def cubic_bezier_point (p0 p1 p2 p3 : Pos2) (t : ℚ) : Pos2 :=
  let u := 1 - t
  let tt := t * t
  let uu := u * u
  let uuu := uu * u
  let ttt := tt * t
  ⟨ uuu * p0.x + 3 * uu * t * p1.x + 3 * u * tt * p2.x + ttt * p3.x
  , uuu * p0.y + 3 * uu * t * p1.y + 3 * u * tt * p2.y + ttt * p3.y ⟩

/-- `f32::EPSILON` is 2⁻²³, used as the degeneracy cutoff in
`point_to_segment_distance`. -/
def F32_EPSILON : ℚ := 1 / 2 ^ 23

/-- `fn point_to_segment_distance`, with the returned distance squared (see the
header comment): scalar projection clamped to [0,1]; a (near) zero-length
segment falls back to the point-to-point distance. -/
def point_to_segment_distSq (p a b : Pos2) : ℚ :=
  let ab := psub b a
  let ap := psub p a
  let ab_len2 := vlen2 ab
  if ab_len2 ≤ F32_EPSILON then
    distSq a p
  else
    let t := min (max (vdot ap ab / ab_len2) 0) 1
    let proj := padd a (vsmul t ab)
    distSq proj p

/-- The fixed sample count (`let samples = 24`) of `hit_test_connection`. -/
def hitSamples : ℕ := 24

/-- The sampling loop of `fn hit_test_connection`: walks `i = 1 ..= samples`
with `prev` starting at `p0`, listing the squared distance from `pointer` to
each polyline segment `(prev, bezier(i/samples))`.  `rem` counts the remaining
iterations. -/
def bezierSegDistSqsAux (pointer p0 c1 c2 p3 : Pos2) (samples : ℕ) :
    ℕ → ℕ → Pos2 → List ℚ
  | 0, _, _ => []
  | rem + 1, i, prev =>
    let t : ℚ := (i : ℚ) / (samples : ℚ)
    let cur := cubic_bezier_point p0 c1 c2 p3 t
    point_to_segment_distSq pointer prev cur ::
      bezierSegDistSqsAux pointer p0 c1 c2 p3 samples rem (i + 1) cur

/-- Squared distances from the pointer to the `samples` polyline segments of
the sampled bezier. -/
def bezierSegDistSqs (pointer p0 c1 c2 p3 : Pos2) (samples : ℕ) : List ℚ :=
  bezierSegDistSqsAux pointer p0 c1 c2 p3 samples samples 1 p0

/-- The bezier geometry of `fn hit_test_connection` for one resolved
connection: the curve runs from the from-node's Output port to the to-node's
Input port with horizontally-extended control points
(`curvature = max(|to.x - from.x|, 60) * 0.45`); the result lists the squared
distances from the pointer to the sampled polyline's segments. -/
def connSegDistSqs (s : NodeGraphApp) (pointer : Pos2) (from_node to_node : Node) :
    List ℚ :=
  let fromP := s.port_pos_screen from_node PortKind.Output
  let toP := s.port_pos_screen to_node PortKind.Input
  let horizontal := |toP.x - fromP.x|
  let curvature := max horizontal 60 * (45 / 100)
  let c1 := padd fromP ⟨curvature, 0⟩
  let c2 := psubv toP ⟨curvature, 0⟩
  bezierSegDistSqs pointer fromP c1 c2 toP hitSamples

/-- The per-connection test inside `fn hit_test_connection`'s
`enumerate().find_map(..)` closure: resolve both endpoint nodes (`?` skips the
connection when either is stale), and compare the minimum sampled segment
distance with the threshold.  The source's `min_d ≤ threshold` over distances
(with `min_d` starting at `f32::MAX`) is
`0 ≤ threshold ∧ some sampled squared distance ≤ threshold²` here. -/
def connCheck (s : NodeGraphApp) (pointer : Pos2) (threshold : ℚ) (idx : ℕ)
    (conn : Connection) : Option ℕ :=
  match s.node_by_id conn.from_node_id with
  | none => none
  | some from_node =>
    match s.node_by_id conn.to_node_id with
    | none => none
    | some to_node =>
      if 0 ≤ threshold ∧ (connSegDistSqs s pointer from_node to_node).any
          fun d => decide (d ≤ threshold ^ 2) then
        some idx
      else
        none

/-- The `enumerate().find_map(..)` scan of `fn hit_test_connection`, rendered
as an indexed recursion. -/
def hitTestAux (s : NodeGraphApp) (pointer : Pos2) (threshold : ℚ) :
    ℕ → List Connection → Option ℕ
  | _, [] => none
  | idx, conn :: rest =>
    match connCheck s pointer threshold idx conn with
    | some i => some i
    | none => hitTestAux s pointer threshold (idx + 1) rest

/-- `fn hit_test_connection`: index of the first connection whose sampled
bezier polyline passes within `threshold` of the pointer. -/
def NodeGraphApp.hit_test_connection (s : NodeGraphApp) (pointer : Pos2)
    (threshold : ℚ) : Option ℕ :=
  hitTestAux s pointer threshold 0 s.connections

/-- Rust `text.split('\n')`: split a character list at newlines, keeping empty
pieces (`n` separators give `n+1` pieces). -/
def splitNl : List Char → List (List Char)
  | [] => [[]]
  | c :: rest =>
    if c = '\n' then
      [] :: splitNl rest
    else
      match splitNl rest with
      | [] => [[c]]
      | l :: ls => (c :: l) :: ls

/-- The merge loop of `fn clamp_text_lines`: re-join pieces with a newline
pushed before every piece but the first. -/
def joinNl : List (List Char) → List Char
  | [] => []
  | [l] => l
  | l :: ls => l ++ '\n' :: joinNl ls

/-- `fn clamp_text_lines`: keep only the first `max_lines` newline-separated
lines of `text`.  (The source writes the merged text back only when it
differs, which is the same value either way.) -/
def clamp_text_lines (text : List Char) (max_lines : ℕ) : List Char :=
  joinNl ((splitNl text).take max_lines)

/-- `fn max_content_lines`: line budget derived from the node rect's height;
`as usize` saturates negative values at 0, and the result is at least 1. -/
def max_content_lines (node_rect : Rect) : ℕ :=
  let content_height := node_rect.height - HEADER_HEIGHT - NODE_INNER_PADDING_Y * 2 - 12
  max (Int.toNat ⌊content_height / 18⌋) 1

/-- `fn finish_dragging_link_if_needed`.  Its two `ctx.input` reads become the
`primary_down` / `interact_pos` arguments.  When the primary button is still
down nothing happens; otherwise a connection is pushed exactly when the
pointer resolves to an Input port on another node and the directed pair is not
already present, and the link-drag state is always cleared. -/
def NodeGraphApp.finish_dragging_link_if_needed (s : NodeGraphApp)
    (primary_down : Bool) (interact_pos : Option Pos2) : NodeGraphApp :=
  match s.dragging_link with
  | none => s
  | some link =>
    if primary_down then
      s
    else
      let s' :=
        match interact_pos with
        | none => s
        | some pointer_pos =>
          match s.port_at pointer_pos with
          | none => s
          | some (target_node_id, target_port) =>
            let duplicate_exists := s.connections.any fun connection =>
              connection.from_node_id == link.from_node &&
                connection.to_node_id == target_node_id
            if target_port = PortKind.Input ∧ target_node_id ≠ link.from_node ∧
                duplicate_exists = false then
              { s with connections :=
                  s.connections ++ [Connection.mk link.from_node target_node_id] }
            else
              s
      { s' with dragging_link := none }

/-- The fields of the egui canvas `Response` that `fn handle_canvas_pan`
reads. -/
structure CanvasResponse where
  drag_started_primary : Bool
  interact_pos : Option Pos2
  dragged_primary : Bool
  drag_motion : Vec2
  drag_stopped_primary : Bool
deriving DecidableEq, Repr

/-- `fn handle_canvas_pan`: on a primary drag start the pan flag is set only
when the press is on empty canvas (`is_some_and` on the pointer position);
while panning the drag motion accumulates into `pan_offset`; the flag is
dropped when the drag stops or the button is no longer down. -/
def NodeGraphApp.handle_canvas_pan (s : NodeGraphApp) (r : CanvasResponse)
    (primary_down : Bool) : NodeGraphApp :=
  let s :=
    if r.drag_started_primary then
      { s with dragging_canvas :=
          match r.interact_pos with
          | none => false
          | some pointer_pos =>
            !s.is_pointer_over_node pointer_pos && (s.port_at pointer_pos).isNone }
    else
      s
  let s :=
    if s.dragging_canvas && r.dragged_primary then
      { s with pan_offset := vadd s.pan_offset r.drag_motion }
    else
      s
  if r.drag_stopped_primary || !primary_down then
    { s with dragging_canvas := false }
  else
    s

/-- The "Reset View" button handler in `update`: `self.pan_offset = Vec2::ZERO`. -/
def NodeGraphApp.reset_view (s : NodeGraphApp) : NodeGraphApp :=
  { s with pan_offset := ⟨0, 0⟩ }

/-- The "Clear Links" button handler in `update`: `self.connections.clear()`. -/
def NodeGraphApp.clear_links (s : NodeGraphApp) : NodeGraphApp :=
  { s with connections := [] }

/-- The widget that owns the current egui pointer drag.  egui routes every
pointer drag to exactly one interested widget (the topmost one under the
press), so a single optional owner models which of the canvas response, a
node's header region, or a node's port interact-region reports the drag.
Node widgets are identified by their index in the node list. -/
inductive DragOwner where
  | canvas
  | header (idx : ℕ)
  | inputPort (idx : ℕ)
  | outputPort (idx : ℕ)
deriving DecidableEq, Repr

/-- One frame's input snapshot, as `update` reads it: the side-panel button
clicks, the pointer state (`primary_down`, `interact_pos`, press / drag
ownership, frame-to-frame drag motion), the canvas `drag_stopped` flag, a
secondary click flag, and the text-edit results the content editors hand back
before clamping.  `press = true` means a primary-button press started a drag
this frame (egui `drag_started`). -/
structure FrameInput where
  add_node_clicked : Bool
  reset_view_clicked : Bool
  clear_links_clicked : Bool
  primary_down : Bool
  pointer_pos : Option Pos2
  press : Bool
  owner : Option DragOwner
  drag_motion : Vec2
  canvas_drag_stopped : Bool
  secondary_clicked : Bool
  edits : ℕ → Option (List Char)

/-- The side-panel pass of `update`: Add Node, Reset View, Clear Links. -/
def sidePanelPass (s : NodeGraphApp) (i : FrameInput) : NodeGraphApp :=
  let s := if i.add_node_clicked then s.add_node else s
  let s := if i.reset_view_clicked then s.reset_view else s
  if i.clear_links_clicked then s.clear_links else s

/-- One `draw_node` call for the node at index `idx` (state-mutating parts
only: painting is omitted).  `node_rect` is computed before the header drag
moves the node, exactly as in the source; a header drag advances the position
by the drag motion; a drag started on the output port interact-region opens
the link-drag state with the pointer position (falling back to the port's
visual position `(rect.right, rect.center.y)` as in the source); finally the
content text (after this frame's edit) is clamped.  Title edits are dropped:
the title takes part in no claim. -/
def drawNodeStep (i : FrameInput) (pan : Vec2) (idx : ℕ) (node : Node)
    (dl : Option DragLinkState) : Node × Option DragLinkState :=
  let node_rect := Rect.from_min_size (padd node.position pan) node.size
  let position' :=
    if i.owner = some (DragOwner.header idx) ∧ i.primary_down = true then
      padd node.position i.drag_motion
    else
      node.position
  let output_pos : Pos2 := ⟨node_rect.right, node_rect.center.y⟩
  let dl' :=
    if i.press = true ∧ i.owner = some (DragOwner.outputPort idx) then
      some { from_node := node.id, from_port := PortKind.Output
           , current_pos := i.pointer_pos.getD output_pos }
    else
      dl
  let content' :=
    clamp_text_lines ((i.edits idx).getD node.content) (max_content_lines node_rect)
  ({ node with position := position', content := content' }, dl')

/-- The `for node_index in 0..self.nodes.len()` loop of `update`, threading the
link-drag state through the per-node steps. -/
def nodePassAux (i : FrameInput) (pan : Vec2) :
    ℕ → List Node → Option DragLinkState → List Node × Option DragLinkState
  | _, [], dl => ([], dl)
  | idx, node :: rest, dl =>
    let (node', dl') := drawNodeStep i pan idx node dl
    let (rest', dl'') := nodePassAux i pan (idx + 1) rest dl'
    (node' :: rest', dl'')

/-- The node-drawing pass of `update`. -/
def nodePass (s : NodeGraphApp) (i : FrameInput) : NodeGraphApp :=
  let (nodes', dl') := nodePassAux i s.pan_offset 0 s.nodes s.dragging_link
  { s with nodes := nodes', dragging_link := dl' }

/-- The `if let Some(link) = &mut self.dragging_link` block of `update`:
refresh the tracked pointer position of an active link drag. -/
def linkPosPass (s : NodeGraphApp) (i : FrameInput) : NodeGraphApp :=
  match s.dragging_link, i.pointer_pos with
  | some link, some pointer_pos =>
    { s with dragging_link := some { link with current_pos := pointer_pos } }
  | _, _ => s

/-- The secondary-click block of `update`: hit-test the connections at the
pointer with threshold 10 and remove the hit connection. -/
def deletePass (s : NodeGraphApp) (i : FrameInput) : NodeGraphApp :=
  if i.secondary_clicked then
    match i.pointer_pos with
    | none => s
    | some pos =>
      match s.hit_test_connection pos 10 with
      | none => s
      | some index => { s with connections := s.connections.eraseIdx index }
  else
    s

/-- The canvas `Response` as the frame input determines it: the canvas reports
a drag start / ongoing drag exactly when it owns the pointer drag. -/
def canvasResponseOf (i : FrameInput) : CanvasResponse :=
  { drag_started_primary := i.press && decide (i.owner = some DragOwner.canvas)
  , interact_pos := i.pointer_pos
  , dragged_primary := decide (i.owner = some DragOwner.canvas) && i.primary_down
  , drag_motion := i.drag_motion
  , drag_stopped_primary := i.canvas_drag_stopped }

/-- One full `update` frame, in the source's order: side panel, node pass,
link-drag pointer refresh, secondary-click deletion, link-drag completion,
canvas pan. -/
def frameStep (s : NodeGraphApp) (i : FrameInput) : NodeGraphApp :=
  let s := sidePanelPass s i
  let s := nodePass s i
  let s := linkPosPass s i
  let s := deletePass s i
  let s := s.finish_dragging_link_if_needed i.primary_down i.pointer_pos
  s.handle_canvas_pan (canvasResponseOf i) i.primary_down

/-- Run a sequence of frames. -/
def runFrames (s : NodeGraphApp) : List FrameInput → NodeGraphApp
  | [] => s
  | i :: rest => runFrames (frameStep s i) rest

/-- The idle input before the first frame: button up, nothing owned. -/
def idleInput : FrameInput :=
  { add_node_clicked := false, reset_view_clicked := false
  , clear_links_clicked := false, primary_down := false, pointer_pos := none
  , press := false, owner := none, drag_motion := ⟨0, 0⟩
  , canvas_drag_stopped := false, secondary_clicked := false
  , edits := fun _ => none }

/-- Consistency of consecutive frame inputs with egui's pointer semantics: a
drag can start only on a press (button previously up, now down), and while the
primary button stays held with no new press the drag owner cannot change. -/
def ValidStep (prev cur : FrameInput) : Prop :=
  (cur.press = true → prev.primary_down = false ∧ cur.primary_down = true) ∧
  (cur.press = false → prev.primary_down = true → cur.primary_down = true →
    cur.owner = prev.owner)

/-- A frame-input trace valid from a given previous input. -/
def ValidTrace : FrameInput → List FrameInput → Prop
  | _, [] => True
  | prev, i :: rest => ValidStep prev i ∧ ValidTrace i rest

/-- Claim C8: for all endpoints p0, p3 and control points p1, p2, the
Bernstein-basis cubic bezier evaluates to exactly p0 at t = 0 and to exactly
p3 at t = 1. -/
theorem cubic_bezier_endpoints : ∀ p0 p1 p2 p3 : Pos2,
    cubic_bezier_point p0 p1 p2 p3 0 = p0 ∧ cubic_bezier_point p0 p1 p2 p3 1 = p3 := by
  intro p0 p1 p2 p3
  obtain ⟨x0, y0⟩ := p0
  obtain ⟨x3, y3⟩ := p3
  constructor <;> simp only [cubic_bezier_point, Pos2.mk.injEq] <;> constructor <;> ring

/-- Claim C10: the initial state has exactly the three demo nodes with ids
0, 1, 2 at (100,100), (340,140), (580,100), the two demo connections 0→1 and
1→2, zero pan, no active canvas pan, no active link drag, and id counter 3;
in particular the model is not empty at startup. -/
theorem default_state_spec :
    (NodeGraphApp.default.nodes.map fun n => (n.id, n.position)) =
        [(0, ⟨100, 100⟩), (1, ⟨340, 140⟩), (2, ⟨580, 100⟩)] ∧
    (NodeGraphApp.default.connections.map fun c => (c.from_node_id, c.to_node_id)) =
        [(0, 1), (1, 2)] ∧
    NodeGraphApp.default.pan_offset = ⟨0, 0⟩ ∧
    NodeGraphApp.default.dragging_canvas = false ∧
    NodeGraphApp.default.dragging_link = none ∧
    NodeGraphApp.default.next_node_id = 3 ∧
    NodeGraphApp.default.nodes.length = 3 ∧
    NodeGraphApp.default.nodes ≠ [] := by
  refine ⟨rfl, rfl, rfl, rfl, rfl, rfl, rfl, ?_⟩
  simp [NodeGraphApp.default]

/-- Claim C7: reset view zeroes the pan offset; a subsequent frame with zero
drag motion leaves it at (0,0); and from any state, a canvas-pan frame that
accumulates a drag of v followed by one that accumulates -v returns the pan
offset to its prior value. -/
theorem pan_reset_and_inverse :
    ∀ (s s₀ : NodeGraphApp) (r r2 : CanvasResponse) (d d2 : Bool) (q : Pos2) (v : Vec2),
    r.drag_motion = ⟨0, 0⟩ →
    s₀.is_pointer_over_node q = false →
    s₀.port_at q = none →
    r2.drag_started_primary = false →
    r2.dragged_primary = true →
    r2.drag_motion = vneg v →
    s.reset_view.pan_offset = ⟨0, 0⟩ ∧
    (s.reset_view.handle_canvas_pan r d).pan_offset = ⟨0, 0⟩ ∧
    ((s₀.handle_canvas_pan ⟨true, some q, true, v, false⟩ true).handle_canvas_pan
        r2 d2).pan_offset = s₀.pan_offset := by
  intro s s₀ r r2 d d2 q v hm hover hport hst2 hdr2 hm2
  refine ⟨rfl, ?_, ?_⟩
  · simp only [NodeGraphApp.handle_canvas_pan, NodeGraphApp.reset_view, hm]
    split <;> split <;> split <;> simp [vadd]
  · simp only [NodeGraphApp.handle_canvas_pan, hover, hport, hst2, hdr2, hm2]
    simp only [Option.isNone_none, Bool.not_false, Bool.and_self, if_true,
      Bool.true_and, Bool.false_eq_true, if_false, Bool.or_false]
    split <;>
    · obtain ⟨vx, vy⟩ := v
      obtain ⟨px, py⟩ := s₀.pan_offset
      simp [vadd, vneg]

/-- Witness for claim C7 at a concrete input: the pointer (5000, 5000) is on
empty canvas in the initial state, and panning by (3, 4) then by (-3, -4)
restores the initial pan offset. -/
theorem pan_reset_and_inverse_witness :
    NodeGraphApp.default.reset_view.pan_offset = ⟨0, 0⟩ ∧
    (NodeGraphApp.default.reset_view.handle_canvas_pan
        ⟨false, none, false, ⟨0, 0⟩, false⟩ true).pan_offset = ⟨0, 0⟩ ∧
    ((NodeGraphApp.default.handle_canvas_pan
        ⟨true, some ⟨5000, 5000⟩, true, ⟨3, 4⟩, false⟩ true).handle_canvas_pan
        ⟨false, none, true, vneg ⟨3, 4⟩, false⟩ true).pan_offset =
      NodeGraphApp.default.pan_offset :=
  pan_reset_and_inverse NodeGraphApp.default NodeGraphApp.default
    ⟨false, none, false, ⟨0, 0⟩, false⟩ ⟨false, none, true, vneg ⟨3, 4⟩, false⟩
    true true ⟨5000, 5000⟩ ⟨3, 4⟩ rfl
    (by
      norm_num [NodeGraphApp.is_pointer_over_node, NodeGraphApp.node_rect_screen,
        Rect.contains, Rect.from_min_size, padd, NODE_SIZE, NodeGraphApp.default])
    (by
      norm_num [NodeGraphApp.port_at, portCheck, NodeGraphApp.port_pos_screen,
        NodeGraphApp.node_rect_screen, Rect.from_min_size, Rect.left, Rect.right,
        Rect.center, padd, distSq, vlen2, vdot, psub, NODE_SIZE, PORT_OUTSET,
        PORT_HIT_RADIUS, NodeGraphApp.default, List.findSome?])
    rfl rfl rfl

/-- Claim C3: after any number of add_node calls from the initial state the
node ids are exactly 0 .. 3+n-1 (hence pairwise distinct and never reused),
the id counter is 3+n (hence strictly monotone), and every single add_node
call appends one node carrying the counter's current value while bumping the
counter by one. -/
theorem add_node_id_allocation : ∀ n : ℕ,
    (Nat.iterate NodeGraphApp.add_node n NodeGraphApp.default).nodes.map Node.id =
        List.range (3 + n) ∧
    (Nat.iterate NodeGraphApp.add_node n NodeGraphApp.default).next_node_id = 3 + n ∧
    ((Nat.iterate NodeGraphApp.add_node n NodeGraphApp.default).nodes.map Node.id).Nodup ∧
    (∀ s : NodeGraphApp, s.add_node.next_node_id = s.next_node_id + 1 ∧
      ∃ node : Node, s.add_node.nodes = s.nodes ++ [node] ∧ node.id = s.next_node_id) := by
  have hsingle : ∀ s : NodeGraphApp, s.add_node.next_node_id = s.next_node_id + 1 ∧
      ∃ node : Node, s.add_node.nodes = s.nodes ++ [node] ∧ node.id = s.next_node_id := by
    intro s
    exact ⟨rfl, ⟨_, rfl, rfl⟩⟩
  intro n
  induction n with
  | zero =>
    refine ⟨?_, rfl, ?_, hsingle⟩
    · decide
    · decide
  | succ n ih =>
    obtain ⟨hmap, hnext, hnodup, _⟩ := ih
    rw [Function.iterate_succ_apply']
    refine ⟨?_, ?_, ?_, hsingle⟩
    · obtain ⟨_, node, hnodes, hid⟩ := hsingle (Nat.iterate NodeGraphApp.add_node n NodeGraphApp.default)
      rw [hnodes, List.map_append, hmap]
      simp only [List.map_cons, List.map_nil, hid, hnext]
      rw [show 3 + (n + 1) = (3 + n) + 1 from rfl, List.range_succ]
    · obtain ⟨hbump, _⟩ := hsingle (Nat.iterate NodeGraphApp.add_node n NodeGraphApp.default)
      rw [hbump, hnext]
      omega
    · obtain ⟨_, node, hnodes, hid⟩ := hsingle (Nat.iterate NodeGraphApp.add_node n NodeGraphApp.default)
      rw [hnodes, List.map_append, hmap]
      simp only [List.map_cons, List.map_nil, hid, hnext]
      rw [← List.range_succ]
      exact List.nodup_range _

/-- A list never equals itself with one extra element appended. -/
theorem self_ne_append_singleton {α : Type} (l : List α) (c : α) : l ≠ l ++ [c] := by
  intro hEq
  have := congrArg List.length hEq
  simp at this

/-- Claim C1: with a link drag active and the primary button released, the
drag state is always cleared, nothing but the connection list can change, and
a connection (from_node, t) is appended if and only if the port hit-test at
the release position yields an Input port of a node t different from
from_node and the directed pair (from_node, t) is not already present (the
duplicate test mentions only that direction, so a reversed pair does not
block); in every other case the connection list is unchanged. -/
theorem finish_link_release_spec :
    ∀ (s : NodeGraphApp) (link : DragLinkState) (pos : Option Pos2),
    s.dragging_link = some link →
    (s.finish_dragging_link_if_needed false pos).dragging_link = none ∧
    (s.finish_dragging_link_if_needed false pos).nodes = s.nodes ∧
    (s.finish_dragging_link_if_needed false pos).pan_offset = s.pan_offset ∧
    (s.finish_dragging_link_if_needed false pos).dragging_canvas = s.dragging_canvas ∧
    (s.finish_dragging_link_if_needed false pos).next_node_id = s.next_node_id ∧
    (∀ t : ℕ,
      (s.finish_dragging_link_if_needed false pos).connections =
          s.connections ++ [Connection.mk link.from_node t] ↔
        ∃ p, pos = some p ∧ s.port_at p = some (t, PortKind.Input) ∧
          t ≠ link.from_node ∧
          (s.connections.any fun c =>
            c.from_node_id == link.from_node && c.to_node_id == t) = false) ∧
    ((s.finish_dragging_link_if_needed false pos).connections = s.connections ∨
      ∃ t : ℕ, (s.finish_dragging_link_if_needed false pos).connections =
        s.connections ++ [Connection.mk link.from_node t]) := by
  intro s link pos h
  cases pos with
  | none =>
    have hres : s.finish_dragging_link_if_needed false none =
        { s with dragging_link := none } := by
      simp [NodeGraphApp.finish_dragging_link_if_needed, h]
    rw [hres]
    refine ⟨rfl, rfl, rfl, rfl, rfl, ?_, Or.inl rfl⟩
    intro t
    constructor
    · intro hEq
      exact absurd hEq (self_ne_append_singleton _ _)
    · rintro ⟨p, hp, -⟩
      exact Option.noConfusion hp
  | some p =>
    rcases hpa : s.port_at p with - | ⟨t0, k0⟩
    · have hres : s.finish_dragging_link_if_needed false (some p) =
          { s with dragging_link := none } := by
        simp [NodeGraphApp.finish_dragging_link_if_needed, h, hpa]
      rw [hres]
      refine ⟨rfl, rfl, rfl, rfl, rfl, ?_, Or.inl rfl⟩
      intro t
      constructor
      · intro hEq
        exact absurd hEq (self_ne_append_singleton _ _)
      · rintro ⟨p', hp', hport, -⟩
        rw [← Option.some.inj hp'] at hport
        rw [hpa] at hport
        exact Option.noConfusion hport
    · cases k0 with
      | Output =>
        have hres : s.finish_dragging_link_if_needed false (some p) =
            { s with dragging_link := none } := by
          simp only [NodeGraphApp.finish_dragging_link_if_needed, h,
            Bool.false_eq_true, if_false, hpa]
          rw [if_neg (by rintro ⟨hk, -⟩; exact PortKind.noConfusion hk)]
        rw [hres]
        refine ⟨rfl, rfl, rfl, rfl, rfl, ?_, Or.inl rfl⟩
        intro t
        constructor
        · intro hEq
          exact absurd hEq (self_ne_append_singleton _ _)
        · rintro ⟨p', hp', hport, -⟩
          rw [← Option.some.inj hp'] at hport
          rw [hpa] at hport
          have hk := congrArg Prod.snd (Option.some.inj hport)
          exact PortKind.noConfusion hk
      | Input =>
        by_cases hcond : t0 ≠ link.from_node ∧
            (s.connections.any fun c =>
              c.from_node_id == link.from_node && c.to_node_id == t0) = false
        · have hres : s.finish_dragging_link_if_needed false (some p) =
              { s with
                connections := s.connections ++ [Connection.mk link.from_node t0]
                dragging_link := none } := by
            simp only [NodeGraphApp.finish_dragging_link_if_needed, h,
              Bool.false_eq_true, if_false, hpa]
            rw [if_pos (by exact ⟨by trivial, hcond.1, hcond.2⟩)]
          rw [hres]
          refine ⟨rfl, rfl, rfl, rfl, rfl, ?_, Or.inr ⟨t0, rfl⟩⟩
          intro t
          constructor
          · intro hEq
            have hts : Connection.mk link.from_node t0 = Connection.mk link.from_node t := by
              have := List.append_cancel_left hEq
              exact List.head_eq_of_cons_eq this
            have ht : t0 = t := congrArg Connection.to_node_id hts
            subst ht
            exact ⟨p, rfl, hpa, hcond.1, hcond.2⟩
          · rintro ⟨p', hp', hport, -, -⟩
            rw [← Option.some.inj hp'] at hport
            rw [hpa] at hport
            have ht : t0 = t := congrArg Prod.fst (Option.some.inj hport)
            rw [← ht]
        · have hres : s.finish_dragging_link_if_needed false (some p) =
              { s with dragging_link := none } := by
            simp only [NodeGraphApp.finish_dragging_link_if_needed, h,
              Bool.false_eq_true, if_false, hpa]
            rw [if_neg (by rintro ⟨-, h1, h2⟩; exact hcond ⟨h1, h2⟩)]
          rw [hres]
          refine ⟨rfl, rfl, rfl, rfl, rfl, ?_, Or.inl rfl⟩
          intro t
          constructor
          · intro hEq
            exact absurd hEq (self_ne_append_singleton _ _)
          · rintro ⟨p', hp', hport, h1, h2⟩
            rw [← Option.some.inj hp'] at hport
            rw [hpa] at hport
            have ht : t0 = t := congrArg Prod.fst (Option.some.inj hport)
            rw [← ht] at h1 h2
            exact absurd ⟨h1, h2⟩ hcond

/-- A concrete state with an active link drag from node 0, for the C1
witness. -/
def linkDragApp : NodeGraphApp :=
  { NodeGraphApp.default with
    dragging_link := some ⟨0, PortKind.Output, ⟨0, 0⟩⟩ }

/-- Witness for claim C1 at a concrete input: releasing the active link drag
of `linkDragApp` with no pointer position clears the drag state and leaves
the connections unchanged. -/
theorem finish_link_release_spec_witness :
    (linkDragApp.finish_dragging_link_if_needed false none).dragging_link = none ∧
    (linkDragApp.finish_dragging_link_if_needed false none).nodes = linkDragApp.nodes ∧
    (linkDragApp.finish_dragging_link_if_needed false none).pan_offset = linkDragApp.pan_offset ∧
    (linkDragApp.finish_dragging_link_if_needed false none).dragging_canvas = linkDragApp.dragging_canvas ∧
    (linkDragApp.finish_dragging_link_if_needed false none).next_node_id = linkDragApp.next_node_id ∧
    (∀ t : ℕ,
      (linkDragApp.finish_dragging_link_if_needed false none).connections =
          linkDragApp.connections ++
            [Connection.mk (DragLinkState.mk 0 PortKind.Output ⟨0, 0⟩).from_node t] ↔
        ∃ p, (none : Option Pos2) = some p ∧
          linkDragApp.port_at p = some (t, PortKind.Input) ∧
          t ≠ (DragLinkState.mk 0 PortKind.Output ⟨0, 0⟩).from_node ∧
          (linkDragApp.connections.any fun c =>
            c.from_node_id == (DragLinkState.mk 0 PortKind.Output ⟨0, 0⟩).from_node &&
              c.to_node_id == t) = false) ∧
    ((linkDragApp.finish_dragging_link_if_needed false none).connections =
        linkDragApp.connections ∨
      ∃ t : ℕ, (linkDragApp.finish_dragging_link_if_needed false none).connections =
        linkDragApp.connections ++
          [Connection.mk (DragLinkState.mk 0 PortKind.Output ⟨0, 0⟩).from_node t]) :=
  finish_link_release_spec linkDragApp ⟨0, PortKind.Output, ⟨0, 0⟩⟩ none rfl

/-- Characterization of `List.findSome?`: it returns `some b` exactly when
some element maps to `some b` and every earlier element maps to `none`. -/
theorem findSome_eq_some_iff {α β : Type} (f : α → Option β) :
    ∀ (l : List α) (b : β), l.findSome? f = some b ↔
      ∃ (i : ℕ) (a : α), l[i]? = some a ∧ f a = some b ∧
        ∀ (j : ℕ) (a' : α), j < i → l[j]? = some a' → f a' = none := by
  intro l
  induction l with
  | nil => simp
  | cons x xs ih =>
    intro b
    rw [List.findSome?_cons]
    cases hfx : f x with
    | some y =>
      constructor
      · intro hEq
        refine ⟨0, x, by simp, by rw [hfx]; exact hEq, ?_⟩
        intro j a' hj
        exact absurd hj (Nat.not_lt_zero j)
      · rintro ⟨i, a, ha, hfa, hprev⟩
        cases i with
        | zero =>
          have ha' : some x = some a := by simpa using ha
          rw [show a = x from (Option.some.inj ha').symm] at hfa
          rw [hfx] at hfa
          exact hfa
        | succ i =>
          have := hprev 0 x (Nat.succ_pos i) (by simp)
          rw [hfx] at this
          exact Option.noConfusion this
    | none =>
      rw [ih b]
      constructor
      · rintro ⟨i, a, ha, hfa, hprev⟩
        refine ⟨i + 1, a, by simpa using ha, hfa, ?_⟩
        intro j a' hj hje
        cases j with
        | zero =>
          have hje' : some x = some a' := by simpa using hje
          rw [show a' = x from (Option.some.inj hje').symm]
          exact hfx
        | succ j =>
          exact hprev j a' (Nat.lt_of_succ_lt_succ hj) (by simpa using hje)
      · rintro ⟨i, a, ha, hfa, hprev⟩
        cases i with
        | zero =>
          have ha' : some x = some a := by simpa using ha
          rw [show a = x from (Option.some.inj ha').symm] at hfa
          rw [hfx] at hfa
          exact Option.noConfusion hfa
        | succ i =>
          refine ⟨i, a, by simpa using ha, hfa, ?_⟩
          intro j a' hj hje
          exact hprev (j + 1) a' (Nat.succ_lt_succ hj) (by simpa using hje)

/-- Characterization of `List.findSome? = none` by positions. -/
theorem findSome_eq_none_iff {α β : Type} (f : α → Option β) (l : List α) :
    l.findSome? f = none ↔ ∀ (j : ℕ) (a' : α), l[j]? = some a' → f a' = none := by
  rw [List.findSome?_eq_none_iff]
  constructor
  · intro hall j a' hj
    exact hall a' (List.mem_iff_getElem?.mpr ⟨j, hj⟩)
  · intro hall a ha
    obtain ⟨j, hj⟩ := List.mem_iff_getElem?.mp ha
    exact hall j a hj

/-- The pointer is within the port hit-radius of the node's Input port. -/
def nearInput (s : NodeGraphApp) (node : Node) (p : Pos2) : Prop :=
  distSq (s.port_pos_screen node PortKind.Input) p ≤ PORT_HIT_RADIUS ^ 2

/-- The pointer is within the port hit-radius of the node's Output port. -/
def nearOutput (s : NodeGraphApp) (node : Node) (p : Pos2) : Prop :=
  distSq (s.port_pos_screen node PortKind.Output) p ≤ PORT_HIT_RADIUS ^ 2

/-- What the per-node port check returns, in terms of the near-predicates. -/
theorem portCheck_some_iff (s : NodeGraphApp) (p : Pos2) (node : Node)
    (n : ℕ) (k : PortKind) :
    portCheck s p node = some (n, k) ↔
      node.id = n ∧ ((k = PortKind.Input ∧ nearInput s node p) ∨
        (k = PortKind.Output ∧ ¬nearInput s node p ∧ nearOutput s node p)) := by
  unfold portCheck nearInput nearOutput
  dsimp only
  split_ifs with h1 h2
  · constructor
    · intro hEq
      have h := Option.some.inj hEq
      exact ⟨congrArg Prod.fst h, Or.inl ⟨(congrArg Prod.snd h).symm, h1⟩⟩
    · rintro ⟨hid, ⟨hk, -⟩ | ⟨-, hni, -⟩⟩
      · rw [hid, hk]
      · exact absurd h1 hni
  · constructor
    · intro hEq
      have h := Option.some.inj hEq
      exact ⟨congrArg Prod.fst h, Or.inr ⟨(congrArg Prod.snd h).symm, h1, h2⟩⟩
    · rintro ⟨hid, ⟨hk, hni⟩ | ⟨hk, -, -⟩⟩
      · exact absurd hni h1
      · rw [hid, hk]
  · constructor
    · intro hEq
      exact absurd hEq (by simp)
    · rintro ⟨-, ⟨-, hni⟩ | ⟨-, -, hno⟩⟩
      · exact absurd hni h1
      · exact absurd hno h2

/-- The per-node port check misses exactly when both ports are out of
radius. -/
theorem portCheck_none_iff (s : NodeGraphApp) (p : Pos2) (node : Node) :
    portCheck s p node = none ↔ ¬nearInput s node p ∧ ¬nearOutput s node p := by
  unfold portCheck nearInput nearOutput
  dsimp only
  split_ifs with h1 h2
  · simp [h1]
  · simp [h2]
  · simp [h1, h2]

/-- Claim C9: the port hit-test scans nodes in collection order, testing each
node's Input port before its Output port: it returns `(n, k)` exactly when
some node at position i has id n with all earlier nodes' ports out of radius,
and k is Input when the Input port is within radius, Output only when the
Input port is not but the Output port is; it returns none exactly when every
node's ports are out of radius. -/
theorem port_at_priority_spec : ∀ (s : NodeGraphApp) (p : Pos2),
    (∀ (n : ℕ) (k : PortKind), s.port_at p = some (n, k) ↔
      ∃ (i : ℕ) (node : Node), s.nodes[i]? = some node ∧
        (node.id = n ∧ ((k = PortKind.Input ∧ nearInput s node p) ∨
          (k = PortKind.Output ∧ ¬nearInput s node p ∧ nearOutput s node p))) ∧
        (∀ (j : ℕ) (node' : Node), j < i → s.nodes[j]? = some node' →
          ¬nearInput s node' p ∧ ¬nearOutput s node' p)) ∧
    (s.port_at p = none ↔ ∀ (j : ℕ) (node' : Node), s.nodes[j]? = some node' →
      ¬nearInput s node' p ∧ ¬nearOutput s node' p) := by
  intro s p
  constructor
  · intro n k
    unfold NodeGraphApp.port_at
    rw [findSome_eq_some_iff]
    refine exists_congr fun i => exists_congr fun node => ?_
    refine and_congr_right fun _ => and_congr (portCheck_some_iff s p node n k) ?_
    refine forall_congr' fun j => forall_congr' fun node' => ?_
    refine imp_congr_right fun _ => imp_congr_right fun _ => ?_
    exact portCheck_none_iff s p node'
  · unfold NodeGraphApp.port_at
    rw [findSome_eq_none_iff]
    refine forall_congr' fun j => forall_congr' fun node' => ?_
    refine imp_congr_right fun _ => ?_
    exact portCheck_none_iff s p node'

/-- The spec-side hit condition for one connection: both endpoint nodes
resolve, and the bezier polyline sampled at `hitSamples` uniform steps passes
within the (nonnegative) threshold of the pointer. -/
def connHitCond (s : NodeGraphApp) (pointer : Pos2) (threshold : ℚ)
    (conn : Connection) : Prop :=
  ∃ from_node to_node : Node,
    s.node_by_id conn.from_node_id = some from_node ∧
    s.node_by_id conn.to_node_id = some to_node ∧
    0 ≤ threshold ∧
    ∃ d ∈ connSegDistSqs s pointer from_node to_node, d ≤ threshold ^ 2

/-- `connCheck` hits (at its own index) exactly under `connHitCond`. -/
theorem connCheck_some_iff (s : NodeGraphApp) (pointer : Pos2) (threshold : ℚ)
    (idx : ℕ) (conn : Connection) (i : ℕ) :
    connCheck s pointer threshold idx conn = some i ↔
      i = idx ∧ connHitCond s pointer threshold conn := by
  unfold connCheck connHitCond
  cases hf : s.node_by_id conn.from_node_id with
  | none =>
    simp only [hf]
    constructor
    · intro h
      exact absurd h (by simp)
    · rintro ⟨-, fn, tn, hfn, -⟩
      exact Option.noConfusion hfn
  | some fn =>
    cases ht : s.node_by_id conn.to_node_id with
    | none =>
      simp only [hf, ht]
      constructor
      · intro h
        exact absurd h (by simp)
      · rintro ⟨-, fn', tn, -, htn, -⟩
        exact Option.noConfusion htn
    | some tn =>
      simp only [hf, ht]
      split_ifs with hc
      · constructor
        · intro h
          refine ⟨(Option.some.inj h).symm, fn, tn, rfl, rfl, hc.1, ?_⟩
          obtain ⟨-, hany⟩ := hc
          obtain ⟨d, hd, hdle⟩ := List.any_eq_true.mp hany
          exact ⟨d, hd, of_decide_eq_true hdle⟩
        · rintro ⟨hi, -⟩
          rw [hi]
      · constructor
        · intro h
          exact absurd h (by simp)
        · rintro ⟨-, fn', tn', hfn', htn', hth, d, hd, hdle⟩
          rw [← Option.some.inj hfn'] at hd
          rw [← Option.some.inj htn'] at hd
          exact absurd ⟨hth, List.any_eq_true.mpr ⟨d, hd, decide_eq_true hdle⟩⟩ hc

/-- `connCheck` misses exactly when `connHitCond` fails. -/
theorem connCheck_none_iff (s : NodeGraphApp) (pointer : Pos2) (threshold : ℚ)
    (idx : ℕ) (conn : Connection) :
    connCheck s pointer threshold idx conn = none ↔
      ¬connHitCond s pointer threshold conn := by
  constructor
  · intro h hcond
    have := (connCheck_some_iff s pointer threshold idx conn idx).mpr ⟨rfl, hcond⟩
    rw [h] at this
    exact Option.noConfusion this
  · intro hcond
    cases hcc : connCheck s pointer threshold idx conn with
    | none => rfl
    | some i =>
      obtain ⟨-, hcond'⟩ := (connCheck_some_iff s pointer threshold idx conn i).mp hcc
      exact absurd hcond' hcond

/-- Characterization of the indexed `find_map` scan of the connection
hit-test. -/
theorem hitTestAux_some_iff (s : NodeGraphApp) (pointer : Pos2) (threshold : ℚ) :
    ∀ (l : List Connection) (k i : ℕ),
    hitTestAux s pointer threshold k l = some i ↔
      ∃ (j : ℕ) (conn : Connection), l[j]? = some conn ∧ i = k + j ∧
        connHitCond s pointer threshold conn ∧
        ∀ (j' : ℕ) (conn' : Connection), j' < j → l[j']? = some conn' →
          ¬connHitCond s pointer threshold conn' := by
  intro l
  induction l with
  | nil => simp [hitTestAux]
  | cons c rest ih =>
    intro k i
    rw [hitTestAux]
    cases hcc : connCheck s pointer threshold k c with
    | some i0 =>
      obtain ⟨hi0, hcond⟩ := (connCheck_some_iff s pointer threshold k c i0).mp hcc
      subst hi0
      constructor
      · intro h
        refine ⟨0, c, by simp, by simpa using (Option.some.inj h).symm, hcond, ?_⟩
        intro j' conn' hj'
        exact absurd hj' (Nat.not_lt_zero j')
      · rintro ⟨j, conn, hget, hi, hcond', hprev⟩
        cases j with
        | zero =>
          have : some c = some conn := by simpa using hget
          simp [hi]
        | succ j =>
          have := hprev 0 c (Nat.succ_pos j) (by simp)
          exact absurd hcond this
    | none =>
      have hmiss := (connCheck_none_iff s pointer threshold k c).mp hcc
      rw [ih (k + 1) i]
      constructor
      · rintro ⟨j, conn, hget, hi, hcond, hprev⟩
        refine ⟨j + 1, conn, by simpa using hget, by omega, hcond, ?_⟩
        intro j' conn' hj' hget'
        cases j' with
        | zero =>
          have : some c = some conn' := by simpa using hget'
          rw [← Option.some.inj this]
          exact hmiss
        | succ j' =>
          exact hprev j' conn' (Nat.lt_of_succ_lt_succ hj') (by simpa using hget')
      · rintro ⟨j, conn, hget, hi, hcond, hprev⟩
        cases j with
        | zero =>
          have : some c = some conn := by simpa using hget
          rw [← Option.some.inj this] at hcond
          exact absurd hcond hmiss
        | succ j =>
          refine ⟨j, conn, by simpa using hget, by omega, hcond, ?_⟩
          intro j' conn' hj' hget'
          exact hprev (j' + 1) conn' (Nat.succ_lt_succ hj') (by simpa using hget')

/-- The indexed scan returns none exactly when no connection hits. -/
theorem hitTestAux_none_iff (s : NodeGraphApp) (pointer : Pos2) (threshold : ℚ) :
    ∀ (l : List Connection) (k : ℕ),
    hitTestAux s pointer threshold k l = none ↔
      ∀ (j : ℕ) (conn : Connection), l[j]? = some conn →
        ¬connHitCond s pointer threshold conn := by
  intro l
  induction l with
  | nil => simp [hitTestAux]
  | cons c rest ih =>
    intro k
    rw [hitTestAux]
    cases hcc : connCheck s pointer threshold k c with
    | some i0 =>
      obtain ⟨-, hcond⟩ := (connCheck_some_iff s pointer threshold k c i0).mp hcc
      constructor
      · intro h
        exact Option.noConfusion h
      · intro hall
        exact absurd hcond (hall 0 c (by simp))
    | none =>
      have hmiss := (connCheck_none_iff s pointer threshold k c).mp hcc
      rw [ih (k + 1)]
      constructor
      · intro hall j conn hget
        cases j with
        | zero =>
          have : some c = some conn := by simpa using hget
          rw [← Option.some.inj this]
          exact hmiss
        | succ j =>
          exact hall j conn (by simpa using hget)
      · intro hall j conn hget
        exact hall (j + 1) conn (by simpa using hget)

/-- Claim C5: the connection hit-test returns the index of the first
connection (in collection order) whose bezier curve, sampled at `hitSamples`
(= 24 ≥ 20) uniform parameter steps and treated as a polyline, passes within
the threshold of the pointer; it returns none when no connection does; and a
connection with a stale endpoint id never hits (it is skipped, not a
failure). -/
theorem hit_test_connection_spec :
    ∀ (s : NodeGraphApp) (pointer : Pos2) (threshold : ℚ),
    (∀ idx : ℕ, s.hit_test_connection pointer threshold = some idx ↔
      (∃ conn : Connection, s.connections[idx]? = some conn ∧
        connHitCond s pointer threshold conn) ∧
      ∀ (j : ℕ) (conn' : Connection), j < idx → s.connections[j]? = some conn' →
        ¬connHitCond s pointer threshold conn') ∧
    (s.hit_test_connection pointer threshold = none ↔
      ∀ (j : ℕ) (conn : Connection), s.connections[j]? = some conn →
        ¬connHitCond s pointer threshold conn) ∧
    (∀ conn : Connection,
      s.node_by_id conn.from_node_id = none ∨ s.node_by_id conn.to_node_id = none →
      ¬connHitCond s pointer threshold conn) ∧
    20 ≤ hitSamples := by
  intro s pointer threshold
  refine ⟨?_, ?_, ?_, by decide⟩
  · intro idx
    unfold NodeGraphApp.hit_test_connection
    rw [hitTestAux_some_iff]
    constructor
    · rintro ⟨j, conn, hget, hi, hcond, hprev⟩
      have hji : j = idx := by omega
      subst hji
      exact ⟨⟨conn, hget, hcond⟩, hprev⟩
    · rintro ⟨⟨conn, hget, hcond⟩, hprev⟩
      exact ⟨idx, conn, hget, by omega, hcond, hprev⟩
  · unfold NodeGraphApp.hit_test_connection
    exact hitTestAux_none_iff s pointer threshold s.connections 0
  · rintro conn (hs | hs) ⟨fn, tn, hfn, htn, -⟩
    · rw [hs] at hfn
      exact Option.noConfusion hfn
    · rw [hs] at htn
      exact Option.noConfusion htn

/-- Splitting on newlines never yields an empty list of pieces. -/
theorem splitNl_ne_nil : ∀ l : List Char, splitNl l ≠ [] := by
  intro l
  induction l with
  | nil => simp [splitNl]
  | cons c rest ih =>
    by_cases hc : c = '\n'
    · simp [splitNl, hc]
    · cases hs : splitNl rest with
      | nil => exact absurd hs ih
      | cons piece ps => simp [splitNl, hc, hs]

/-- No piece produced by the newline split contains a newline. -/
theorem newline_not_mem_splitNl : ∀ (l : List Char) (piece : List Char),
    piece ∈ splitNl l → '\n' ∉ piece := by
  intro l
  induction l with
  | nil =>
    intro piece hp
    rw [show splitNl [] = [[]] from rfl] at hp
    rw [List.mem_singleton.mp hp]
    simp
  | cons c rest ih =>
    intro piece hp
    by_cases hc : c = '\n'
    · rw [show splitNl (c :: rest) = [] :: splitNl rest by simp [splitNl, hc]] at hp
      rcases List.mem_cons.mp hp with h | h
      · rw [h]; simp
      · exact ih piece h
    · cases hs : splitNl rest with
      | nil => exact absurd hs (splitNl_ne_nil rest)
      | cons q qs =>
        rw [show splitNl (c :: rest) = (c :: q) :: qs by simp [splitNl, hc, hs]] at hp
        rcases List.mem_cons.mp hp with h | h
        · rw [h]
          intro hmem
          rcases List.mem_cons.mp hmem with h' | h'
          · exact hc h'.symm
          · exact ih q (hs ▸ List.mem_cons_self q qs) h'
        · exact ih piece (hs ▸ List.mem_cons_of_mem q h)

/-- Re-joining the newline split restores the original text. -/
theorem joinNl_splitNl : ∀ l : List Char, joinNl (splitNl l) = l := by
  intro l
  induction l with
  | nil => rfl
  | cons c rest ih =>
    by_cases hc : c = '\n'
    · rw [show splitNl (c :: rest) = [] :: splitNl rest by simp [splitNl, hc]]
      cases hs : splitNl rest with
      | nil => exact absurd hs (splitNl_ne_nil rest)
      | cons q qs =>
        rw [show joinNl ([] :: q :: qs) = [] ++ '\n' :: joinNl (q :: qs) from rfl]
        rw [← hs, ih, hc]
        rfl
    · cases hs : splitNl rest with
      | nil => exact absurd hs (splitNl_ne_nil rest)
      | cons q qs =>
        rw [show splitNl (c :: rest) = (c :: q) :: qs by simp [splitNl, hc, hs]]
        cases qs with
        | nil =>
          rw [show joinNl [c :: q] = c :: q from rfl]
          rw [hs] at ih
          rw [show joinNl [q] = q from rfl] at ih
          rw [ih]
        | cons q2 qs2 =>
          rw [show joinNl ((c :: q) :: q2 :: qs2) =
            (c :: q) ++ '\n' :: joinNl (q2 :: qs2) from rfl]
          rw [hs] at ih
          rw [show joinNl (q :: q2 :: qs2) = q ++ '\n' :: joinNl (q2 :: qs2) from rfl] at ih
          simp only [List.cons_append]
          rw [ih]

/-- A newline-free text splits into itself as the single piece. -/
theorem splitNl_no_newline : ∀ l : List Char, '\n' ∉ l → splitNl l = [l] := by
  intro l
  induction l with
  | nil => intro; rfl
  | cons c rest ih =>
    intro hmem
    have hc : ¬c = '\n' := fun h => hmem (h ▸ List.mem_cons_self c rest)
    have hrest : '\n' ∉ rest := fun h => hmem (List.mem_cons_of_mem c h)
    rw [show splitNl (c :: rest) = (c :: rest) :: [] by simp [splitNl, hc, ih hrest]]

/-- Split after a newline-free prefix followed by an explicit newline. -/
theorem splitNl_append_newline : ∀ (p r : List Char), '\n' ∉ p →
    splitNl (p ++ '\n' :: r) = p :: splitNl r := by
  intro p
  induction p with
  | nil =>
    intro r _
    simp [splitNl]
  | cons c p' ih =>
    intro r hmem
    have hc : ¬c = '\n' := fun h => hmem (h ▸ List.mem_cons_self c p')
    have hp' : '\n' ∉ p' := fun h => hmem (List.mem_cons_of_mem c h)
    rw [List.cons_append]
    simp [splitNl, hc, ih r hp']

/-- Splitting a join of nonempty, newline-free pieces restores the pieces. -/
theorem splitNl_joinNl : ∀ pieces : List (List Char), pieces ≠ [] →
    (∀ p ∈ pieces, '\n' ∉ p) → splitNl (joinNl pieces) = pieces := by
  intro pieces
  induction pieces with
  | nil => intro h; exact absurd rfl h
  | cons p ps ih =>
    intro _ hfree
    cases ps with
    | nil =>
      rw [show joinNl [p] = p from rfl]
      exact splitNl_no_newline p (hfree p (List.mem_cons_self p []))
    | cons q qs =>
      rw [show joinNl (p :: q :: qs) = p ++ '\n' :: joinNl (q :: qs) from rfl]
      rw [splitNl_append_newline _ _ (hfree p (List.mem_cons_self p (q :: qs)))]
      rw [ih (by simp) fun x hx => hfree x (List.mem_cons_of_mem p hx)]

/-- Clamping splits into exactly the first `max_lines` pieces of the input,
provided at least one line is allowed. -/
theorem splitNl_clamp (text : List Char) (m : ℕ) (hm : 1 ≤ m) :
    splitNl (clamp_text_lines text m) = (splitNl text).take m := by
  unfold clamp_text_lines
  apply splitNl_joinNl
  · cases hs : splitNl text with
    | nil => exact absurd hs (splitNl_ne_nil text)
    | cons q qs =>
      cases m with
      | zero => omega
      | succ m => simp
  · intro p hp
    exact newline_not_mem_splitNl text p (List.take_subset m (splitNl text) hp)

/-- `max_content_lines` only depends on the rect's height, hence only on the
node's size. -/
theorem max_content_lines_from_min_size (p q : Pos2) (sz : Vec2) :
    max_content_lines (Rect.from_min_size p sz) =
      max_content_lines (Rect.from_min_size q sz) := by
  unfold max_content_lines Rect.from_min_size Rect.height padd
  norm_num

/-- The side panel does not touch the drag flags or the pan-irrelevant
projections listed here. -/
theorem sidePanelPass_proj (s : NodeGraphApp) (i : FrameInput) :
    (sidePanelPass s i).dragging_canvas = s.dragging_canvas ∧
    (sidePanelPass s i).dragging_link = s.dragging_link := by
  unfold sidePanelPass NodeGraphApp.add_node NodeGraphApp.reset_view
    NodeGraphApp.clear_links
  split_ifs <;> exact ⟨rfl, rfl⟩

/-- The node pass leaves connections, pan, canvas flag, and the id counter
untouched. -/
theorem nodePass_proj (s : NodeGraphApp) (i : FrameInput) :
    (nodePass s i).connections = s.connections ∧
    (nodePass s i).pan_offset = s.pan_offset ∧
    (nodePass s i).dragging_canvas = s.dragging_canvas ∧
    (nodePass s i).next_node_id = s.next_node_id := by
  unfold nodePass
  exact ⟨rfl, rfl, rfl, rfl⟩

/-- The link-position refresh touches only the drag-link pointer field. -/
theorem linkPosPass_proj (s : NodeGraphApp) (i : FrameInput) :
    (linkPosPass s i).nodes = s.nodes ∧
    (linkPosPass s i).connections = s.connections ∧
    (linkPosPass s i).pan_offset = s.pan_offset ∧
    (linkPosPass s i).dragging_canvas = s.dragging_canvas ∧
    (linkPosPass s i).next_node_id = s.next_node_id ∧
    (linkPosPass s i).dragging_link.isSome = s.dragging_link.isSome := by
  rcases hdl : s.dragging_link with - | link <;>
    rcases hpp : i.pointer_pos with - | p <;>
    simp [linkPosPass, hdl, hpp]

/-- The deletion pass touches only the connection list. -/
theorem deletePass_proj (s : NodeGraphApp) (i : FrameInput) :
    (deletePass s i).nodes = s.nodes ∧
    (deletePass s i).pan_offset = s.pan_offset ∧
    (deletePass s i).dragging_canvas = s.dragging_canvas ∧
    (deletePass s i).dragging_link = s.dragging_link ∧
    (deletePass s i).next_node_id = s.next_node_id := by
  unfold deletePass
  split_ifs
  · rcases hpp : i.pointer_pos with - | p
    · exact ⟨rfl, rfl, rfl, rfl, rfl⟩
    · rcases hht : s.hit_test_connection p 10 with - | idx <;>
        simp [hht]
  · exact ⟨rfl, rfl, rfl, rfl, rfl⟩

/-- Link-drag completion touches only connections and the drag-link state. -/
theorem finish_proj (s : NodeGraphApp) (d : Bool) (pos : Option Pos2) :
    (s.finish_dragging_link_if_needed d pos).nodes = s.nodes ∧
    (s.finish_dragging_link_if_needed d pos).pan_offset = s.pan_offset ∧
    (s.finish_dragging_link_if_needed d pos).dragging_canvas = s.dragging_canvas ∧
    (s.finish_dragging_link_if_needed d pos).next_node_id = s.next_node_id := by
  rcases hdl : s.dragging_link with - | link
  · simp [NodeGraphApp.finish_dragging_link_if_needed, hdl]
  · unfold NodeGraphApp.finish_dragging_link_if_needed
    rw [hdl]
    split_ifs
    · exact ⟨rfl, rfl, rfl, rfl⟩
    · rcases hpp : pos with - | p
      · exact ⟨rfl, rfl, rfl, rfl⟩
      · rcases hpa : s.port_at p with - | ⟨t, k⟩
        · simp [hpa]
        · dsimp only
          rw [hpa]
          dsimp only
          split_ifs <;> exact ⟨rfl, rfl, rfl, rfl⟩

/-- Canvas-pan handling touches only the pan offset and the canvas flag. -/
theorem pan_proj (s : NodeGraphApp) (r : CanvasResponse) (d : Bool) :
    (s.handle_canvas_pan r d).nodes = s.nodes ∧
    (s.handle_canvas_pan r d).connections = s.connections ∧
    (s.handle_canvas_pan r d).dragging_link = s.dragging_link ∧
    (s.handle_canvas_pan r d).next_node_id = s.next_node_id := by
  unfold NodeGraphApp.handle_canvas_pan
  dsimp only
  split_ifs <;> exact ⟨rfl, rfl, rfl, rfl⟩

/-- Every node in the node pass's output is a node of the input with the same
size whose content is the clamp of its edited content at its own rect's line
budget. -/
theorem nodePassAux_content : ∀ (i : FrameInput) (pan : Vec2) (idx : ℕ)
    (ns : List Node) (dl : Option DragLinkState) (node' : Node),
    node' ∈ (nodePassAux i pan idx ns dl).1 →
    ∃ (node : Node) (idx' : ℕ), node ∈ ns ∧ node'.size = node.size ∧
      node'.content = clamp_text_lines ((i.edits idx').getD node.content)
        (max_content_lines (Rect.from_min_size (padd node.position pan) node.size)) := by
  intro i pan idx ns
  induction ns generalizing idx with
  | nil =>
    intro dl node' h
    exact absurd h (by simp [nodePassAux])
  | cons n rest ih =>
    intro dl node' h
    rw [show nodePassAux i pan idx (n :: rest) dl =
      (let nd := drawNodeStep i pan idx n dl
       let rd := nodePassAux i pan (idx + 1) rest nd.2
       (nd.1 :: rd.1, rd.2)) from rfl] at h
    rcases List.mem_cons.mp h with hh | hh
    · refine ⟨n, idx, List.mem_cons_self n rest, ?_, ?_⟩
      · rw [hh]; rfl
      · rw [hh]; rfl
    · obtain ⟨node, idx', hmem, hsz, hcon⟩ := ih (idx + 1) _ node' hh
      exact ⟨node, idx', List.mem_cons_of_mem n hmem, hsz, hcon⟩

/-- Claim C6: the per-rect line budget is at least 1; clamping keeps exactly
the first `max_content_lines(rect)` newline-separated lines (so the result
has at most that many lines, and text already within the limit is left
unchanged); and after a full frame every node's stored content respects its
own rect's budget — the clamp is a hard data constraint applied on every
edit pass, not a display-only clamp. -/
theorem content_line_clamp_spec : ∀ (text : List Char) (node_rect : Rect),
    1 ≤ max_content_lines node_rect ∧
    splitNl (clamp_text_lines text (max_content_lines node_rect)) =
      (splitNl text).take (max_content_lines node_rect) ∧
    (splitNl (clamp_text_lines text (max_content_lines node_rect))).length ≤
      max_content_lines node_rect ∧
    ((splitNl text).length ≤ max_content_lines node_rect →
      clamp_text_lines text (max_content_lines node_rect) = text) ∧
    (∀ (s : NodeGraphApp) (i : FrameInput) (node' : Node),
      node' ∈ (frameStep s i).nodes →
      (splitNl node'.content).length ≤
        max_content_lines
          (Rect.from_min_size (padd node'.position s.pan_offset) node'.size)) := by
  intro text node_rect
  have hone : ∀ r : Rect, 1 ≤ max_content_lines r := fun r => le_max_right _ 1
  refine ⟨hone node_rect, splitNl_clamp text _ (hone node_rect), ?_, ?_, ?_⟩
  · rw [splitNl_clamp text _ (hone node_rect), List.length_take]
    exact min_le_left _ _
  · intro hlen
    unfold clamp_text_lines
    rw [List.take_of_length_le hlen, joinNl_splitNl]
  · intro s i node' hmem
    have hnodes : (frameStep s i).nodes = (nodePass (sidePanelPass s i) i).nodes := by
      unfold frameStep
      rw [(pan_proj _ _ _).1, (finish_proj _ _ _).1, (deletePass_proj _ _).1,
        (linkPosPass_proj _ _).1]
    rw [hnodes] at hmem
    obtain ⟨node, idx', -, hsz, hcon⟩ :=
      nodePassAux_content i (sidePanelPass s i).pan_offset 0
        (sidePanelPass s i).nodes (sidePanelPass s i).dragging_link node' hmem
    rw [hcon, splitNl_clamp _ _ (hone _), List.length_take]
    have := min_le_left (max_content_lines
      (Rect.from_min_size (padd node.position (sidePanelPass s i).pan_offset) node.size))
      (splitNl ((i.edits idx').getD node.content)).length
    calc min (max_content_lines
          (Rect.from_min_size (padd node.position (sidePanelPass s i).pan_offset) node.size))
          (splitNl ((i.edits idx').getD node.content)).length ≤ _ := this
      _ = max_content_lines
          (Rect.from_min_size (padd node'.position s.pan_offset) node'.size) := by
          rw [hsz]
          exact max_content_lines_from_min_size _ _ _

/-- The connection-collection invariant: no self-loops and no duplicate
directed pairs. -/
def ConnListOk (l : List Connection) : Prop :=
  (∀ c ∈ l, c.from_node_id ≠ c.to_node_id) ∧
  (l.map fun c => (c.from_node_id, c.to_node_id)).Nodup

/-- Erasing an index preserves the connection invariant. -/
theorem connListOk_eraseIdx (l : List Connection) (i : ℕ) (h : ConnListOk l) :
    ConnListOk (l.eraseIdx i) := by
  obtain ⟨hself, hnd⟩ := h
  constructor
  · intro c hc
    exact hself c ((List.eraseIdx_sublist l i).subset hc)
  · exact hnd.sublist ((List.eraseIdx_sublist l i).map _)

/-- Appending a guarded fresh non-loop edge preserves the invariant. -/
theorem connListOk_append (l : List Connection) (a b : ℕ) (hab : a ≠ b)
    (hdup : (l.any fun c => c.from_node_id == a && c.to_node_id == b) = false)
    (h : ConnListOk l) : ConnListOk (l ++ [Connection.mk a b]) := by
  obtain ⟨hself, hnd⟩ := h
  constructor
  · intro c hc
    rcases List.mem_append.mp hc with hc | hc
    · exact hself c hc
    · rw [List.mem_singleton.mp hc]
      exact hab
  · rw [List.map_append]
    rw [List.nodup_append_comm]
    rw [show (([Connection.mk a b].map fun c => (c.from_node_id, c.to_node_id)) ++
        l.map fun c => (c.from_node_id, c.to_node_id)) =
      (a, b) :: l.map fun c => (c.from_node_id, c.to_node_id) from rfl]
    rw [List.nodup_cons]
    refine ⟨?_, hnd⟩
    intro hmem
    obtain ⟨c, hcl, hc⟩ := List.mem_map.mp hmem
    have hfa : c.from_node_id = a := congrArg Prod.fst hc
    have htb : c.to_node_id = b := congrArg Prod.snd hc
    have := List.any_eq_false.mp hdup c hcl
    rw [hfa, htb] at this
    simp at this

/-- The side panel either keeps or clears the connection list. -/
theorem sidePanelPass_connections (s : NodeGraphApp) (i : FrameInput) :
    (sidePanelPass s i).connections = s.connections ∨
    (sidePanelPass s i).connections = [] := by
  unfold sidePanelPass NodeGraphApp.add_node NodeGraphApp.reset_view
    NodeGraphApp.clear_links
  split_ifs <;> simp

/-- The deletion pass either keeps the connection list or erases one index. -/
theorem deletePass_connections (s : NodeGraphApp) (i : FrameInput) :
    (deletePass s i).connections = s.connections ∨
    ∃ idx : ℕ, (deletePass s i).connections = s.connections.eraseIdx idx := by
  unfold deletePass
  split_ifs
  · rcases hpp : i.pointer_pos with - | p
    · exact Or.inl rfl
    · dsimp only
      rcases hht : s.hit_test_connection p 10 with - | idx
      · exact Or.inl rfl
      · exact Or.inr ⟨idx, rfl⟩
  · exact Or.inl rfl

/-- Link-drag completion either keeps the connection list or appends one
guarded edge (target distinct from the source, directed pair not already
present). -/
theorem finish_connections (s : NodeGraphApp) (d : Bool) (pos : Option Pos2) :
    (s.finish_dragging_link_if_needed d pos).connections = s.connections ∨
    ∃ a b : ℕ, a ≠ b ∧
      (s.connections.any fun c => c.from_node_id == a && c.to_node_id == b) = false ∧
      (s.finish_dragging_link_if_needed d pos).connections =
        s.connections ++ [Connection.mk a b] := by
  rcases hdl : s.dragging_link with - | link
  · left
    simp [NodeGraphApp.finish_dragging_link_if_needed, hdl]
  · unfold NodeGraphApp.finish_dragging_link_if_needed
    rw [hdl]
    split_ifs
    · exact Or.inl rfl
    · rcases hpp : pos with - | p
      · exact Or.inl rfl
      · rcases hpa : s.port_at p with - | ⟨t, k⟩
        · left
          simp [hpa]
        · dsimp only
          rw [hpa]
          dsimp only
          split_ifs with hcond
          · right
            exact ⟨link.from_node, t, fun hEq => hcond.2.1 hEq.symm, hcond.2.2, rfl⟩
          · exact Or.inl rfl

/-- One frame preserves the connection invariant. -/
theorem connListOk_frameStep (s : NodeGraphApp) (i : FrameInput)
    (h : ConnListOk s.connections) : ConnListOk (frameStep s i).connections := by
  unfold frameStep
  have h1 : ConnListOk (sidePanelPass s i).connections := by
    rcases sidePanelPass_connections s i with hc | hc <;> rw [hc]
    · exact h
    · exact ⟨by simp, by simp⟩
  have h2 : ConnListOk (nodePass (sidePanelPass s i) i).connections := by
    rw [(nodePass_proj _ _).1]
    exact h1
  have h3 : ConnListOk (linkPosPass (nodePass (sidePanelPass s i) i) i).connections := by
    rw [(linkPosPass_proj _ _).2.1]
    exact h2
  have h4 : ConnListOk (deletePass (linkPosPass (nodePass (sidePanelPass s i) i) i)
      i).connections := by
    rcases deletePass_connections (linkPosPass (nodePass (sidePanelPass s i) i) i) i with
      hc | ⟨idx, hc⟩ <;> rw [hc]
    · exact h3
    · exact connListOk_eraseIdx _ idx h3
  have h5 : ConnListOk ((deletePass (linkPosPass (nodePass (sidePanelPass s i) i) i)
      i).finish_dragging_link_if_needed i.primary_down i.pointer_pos).connections := by
    rcases finish_connections (deletePass (linkPosPass (nodePass (sidePanelPass s i) i) i) i)
        i.primary_down i.pointer_pos with hc | ⟨a, b, hab, hdup, hc⟩ <;> rw [hc]
    · exact h4
    · exact connListOk_append _ a b hab hdup h4
  rw [(pan_proj _ _ _).2.1]
  exact h5

/-- Running any frame trace preserves the connection invariant. -/
theorem connListOk_runFrames : ∀ (trace : List FrameInput) (s : NodeGraphApp),
    ConnListOk s.connections → ConnListOk (runFrames s trace).connections := by
  intro trace
  induction trace with
  | nil => intro s h; exact h
  | cons i rest ih =>
    intro s h
    exact ih (frameStep s i) (connListOk_frameStep s i h)

/-- With an injective view `f` of the elements pairwise distinct, at most one
element maps to any given value. -/
theorem countP_le_one_of_nodup_map {α β : Type} [DecidableEq β] (f : α → β) :
    ∀ l : List α, (l.map f).Nodup → ∀ y : β,
      (l.countP fun x => decide (f x = y)) ≤ 1 := by
  intro l
  induction l with
  | nil => simp
  | cons x xs ih =>
    intro hnd y
    rw [List.map_cons, List.nodup_cons] at hnd
    obtain ⟨hnotmem, hnd'⟩ := hnd
    rw [List.countP_cons]
    by_cases hfy : f x = y
    · have h0 : (xs.countP fun x' => decide (f x' = y)) = 0 := by
        rw [List.countP_eq_zero]
        intro a ha
        simp only [decide_eq_true_eq]
        intro hfa
        exact hnotmem (by rw [hfy, ← hfa]; exact List.mem_map_of_mem f ha)
      simp [h0, hfy]
    · simp [hfy]
      exact ih hnd' y

/-- Claim C2: in every state reachable from the initial state by frames (which
cover add-node, link-drag completion, secondary-click deletion, and clearing),
the connection collection has no self-loop and no duplicated directed pair;
in particular any directed pair occurs at most once, so attempting the same
link twice leaves exactly one copy and a self-link never appears. -/
theorem connection_collection_invariant : ∀ trace : List FrameInput,
    (∀ c ∈ (runFrames NodeGraphApp.default trace).connections,
      c.from_node_id ≠ c.to_node_id) ∧
    ((runFrames NodeGraphApp.default trace).connections.map
      fun c => (c.from_node_id, c.to_node_id)).Nodup ∧
    (∀ a b : ℕ, ((runFrames NodeGraphApp.default trace).connections.countP
      fun c => decide (c.from_node_id = a ∧ c.to_node_id = b)) ≤ 1) := by
  intro trace
  have hinit : ConnListOk NodeGraphApp.default.connections := by
    constructor
    · intro c hc
      rcases List.mem_cons.mp hc with h | h
      · rw [h]; decide
      · rw [List.mem_singleton.mp h]; decide
    · decide
  obtain ⟨hself, hnd⟩ := connListOk_runFrames trace NodeGraphApp.default hinit
  refine ⟨hself, hnd, ?_⟩
  intro a b
  have := countP_le_one_of_nodup_map (fun c : Connection => (c.from_node_id, c.to_node_id))
    (runFrames NodeGraphApp.default trace).connections hnd (a, b)
  calc ((runFrames NodeGraphApp.default trace).connections.countP
      fun c => decide (c.from_node_id = a ∧ c.to_node_id = b)) =
      ((runFrames NodeGraphApp.default trace).connections.countP
        fun c => decide ((c.from_node_id, c.to_node_id) = (a, b))) := by
        apply List.countP_congr
        intro c _
        simp [Prod.ext_iff]
    _ ≤ 1 := this

/-- One draw-node step can set the link-drag state only on a press routed to
that node's output port; otherwise it passes the state through. -/
theorem drawNodeStep_link (i : FrameInput) (pan : Vec2) (idx : ℕ) (node : Node)
    (dl : Option DragLinkState) (l : DragLinkState)
    (h : (drawNodeStep i pan idx node dl).2 = some l) :
    (i.press = true ∧ i.owner = some (DragOwner.outputPort idx)) ∨ dl = some l := by
  unfold drawNodeStep at h
  dsimp only at h
  split_ifs at h with hc
  · exact Or.inl hc
  · exact Or.inr h

/-- The node pass can produce an active link drag only on a press routed to
some output port, or by passing an already-active one through. -/
theorem nodePassAux_link : ∀ (i : FrameInput) (pan : Vec2) (idx : ℕ)
    (ns : List Node) (dl : Option DragLinkState) (l : DragLinkState),
    (nodePassAux i pan idx ns dl).2 = some l →
    (i.press = true ∧ ∃ j : ℕ, i.owner = some (DragOwner.outputPort j)) ∨
      dl = some l := by
  intro i pan idx ns
  induction ns generalizing idx with
  | nil =>
    intro dl l h
    exact Or.inr h
  | cons n rest ih =>
    intro dl l h
    rw [show (nodePassAux i pan idx (n :: rest) dl).2 =
      (nodePassAux i pan (idx + 1) rest (drawNodeStep i pan idx n dl).2).2 from rfl] at h
    rcases ih (idx + 1) _ l h with hl | hl
    · exact Or.inl hl
    · rcases drawNodeStep_link i pan idx n dl l hl with ⟨hp, ho⟩ | hdl
      · exact Or.inl ⟨hp, idx, ho⟩
      · exact Or.inr hdl

/-- Link-drag completion keeps an active link drag only while the primary
button is down, and never creates one. -/
theorem finish_link (s : NodeGraphApp) (d : Bool) (pos : Option Pos2)
    (l : DragLinkState)
    (h : (s.finish_dragging_link_if_needed d pos).dragging_link = some l) :
    d = true ∧ s.dragging_link = some l := by
  rcases hdl : s.dragging_link with - | link
  · rw [show s.finish_dragging_link_if_needed d pos = s by
      unfold NodeGraphApp.finish_dragging_link_if_needed; rw [hdl]] at h
    rw [hdl] at h
    exact Option.noConfusion h
  · unfold NodeGraphApp.finish_dragging_link_if_needed at h
    rw [hdl] at h
    split_ifs at h with hd
    · refine ⟨hd, ?_⟩
      have h' : s.dragging_link = some l := h
      rw [hdl] at h'
      exact h'

/-- The link-position refresh cannot create an active link drag. -/
theorem linkPosPass_link (s : NodeGraphApp) (i : FrameInput) (l : DragLinkState)
    (h : (linkPosPass s i).dragging_link = some l) :
    ∃ l0 : DragLinkState, s.dragging_link = some l0 := by
  have := (linkPosPass_proj s i).2.2.2.2.2
  rw [h] at this
  exact Option.isSome_iff_exists.mp this.symm

/-- What it takes for canvas-pan handling to end a frame with the pan flag
set: the primary button is still down, the drag did not stop, and either the
canvas drag started this frame on empty canvas, or no canvas drag started and
the flag was already set. -/
theorem pan_dc (s : NodeGraphApp) (r : CanvasResponse) (d : Bool)
    (h : (s.handle_canvas_pan r d).dragging_canvas = true) :
    d = true ∧ r.drag_stopped_primary = false ∧
    ((r.drag_started_primary = true ∧ ∃ p, r.interact_pos = some p ∧
        s.is_pointer_over_node p = false ∧ s.port_at p = none) ∨
      (r.drag_started_primary = false ∧ s.dragging_canvas = true)) := by
  unfold NodeGraphApp.handle_canvas_pan at h
  dsimp only at h
  by_cases hstop : (r.drag_stopped_primary || !d) = true
  · rw [if_pos hstop] at h
    exact absurd h (by simp)
  · rw [if_neg hstop] at h
    have hsd : r.drag_stopped_primary = false ∧ d = true := by
      rcases hx : r.drag_stopped_primary with - | - <;> rcases hy : d with - | - <;>
        simp_all
    refine ⟨hsd.2, hsd.1, ?_⟩
    by_cases hstart : r.drag_started_primary = true
    · rw [if_pos hstart] at h
      left
      refine ⟨hstart, ?_⟩
      have hmain : (match r.interact_pos with
          | none => false
          | some pointer_pos => !s.is_pointer_over_node pointer_pos &&
              (s.port_at pointer_pos).isNone) = true := by
        split_ifs at h
        · exact h
        · exact h
      rcases hip : r.interact_pos with - | p
      · rw [hip] at hmain
        exact absurd hmain (by simp)
      · rw [hip] at hmain
        dsimp only at hmain
        have hov : s.is_pointer_over_node p = false := by
          rcases hb : s.is_pointer_over_node p with - | -
          · rfl
          · rw [hb] at hmain
            simp at hmain
        have hnone : s.port_at p = none := by
          rcases hb : s.port_at p with - | q
          · rfl
          · rw [hb] at hmain
            simp at hmain
        exact ⟨p, rfl, hov, hnone⟩
    · rw [if_neg hstart] at h
      right
      refine ⟨Bool.eq_false_iff.mpr hstart, ?_⟩
      split_ifs at h
      · exact h
      · exact h

/-- The hit-test-relevant projection of a node: id, position and size. -/
def nodeGeo (n : Node) : ℕ × Pos2 × Vec2 := (n.id, n.position, n.size)

/-- The per-node port check only reads the node's geometry and the pan. -/
theorem portCheck_congr (s t : NodeGraphApp) (p : Pos2) (node node' : Node)
    (hpan : s.pan_offset = t.pan_offset) (hgeo : nodeGeo node = nodeGeo node') :
    portCheck s p node = portCheck t p node' := by
  have hid : node.id = node'.id := congrArg Prod.fst hgeo
  have hpos : node.position = node'.position := congrArg (fun x => x.2.1) hgeo
  have hsz : node.size = node'.size := congrArg (fun x => x.2.2) hgeo
  unfold portCheck NodeGraphApp.port_pos_screen NodeGraphApp.node_rect_screen
  rw [hid, hpos, hsz, hpan]

/-- The node screen rect only reads the node's geometry and the pan. -/
theorem node_rect_congr (s t : NodeGraphApp) (node node' : Node)
    (hpan : s.pan_offset = t.pan_offset) (hgeo : nodeGeo node = nodeGeo node') :
    s.node_rect_screen node = t.node_rect_screen node' := by
  have hpos : node.position = node'.position := congrArg (fun x => x.2.1) hgeo
  have hsz : node.size = node'.size := congrArg (fun x => x.2.2) hgeo
  unfold NodeGraphApp.node_rect_screen
  rw [hpos, hsz, hpan]

/-- The port hit-test agrees between two states whose node geometries and pan
offsets agree. -/
theorem port_at_congr (s t : NodeGraphApp) (p : Pos2)
    (hpan : s.pan_offset = t.pan_offset)
    (hg : s.nodes.map nodeGeo = t.nodes.map nodeGeo) :
    s.port_at p = t.port_at p := by
  unfold NodeGraphApp.port_at
  have key : ∀ ns ms : List Node, ns.map nodeGeo = ms.map nodeGeo →
      ns.findSome? (portCheck s p) = ms.findSome? (portCheck t p) := by
    intro ns
    induction ns with
    | nil =>
      intro ms h
      cases ms with
      | nil => rfl
      | cons m msr => simp at h
    | cons n nsr ih =>
      intro ms h
      cases ms with
      | nil => simp at h
      | cons m msr =>
        simp only [List.map_cons, List.cons.injEq] at h
        obtain ⟨hgeo1, hrest⟩ := h
        rw [List.findSome?_cons, List.findSome?_cons]
        rw [portCheck_congr s t p n m hpan hgeo1]
        cases portCheck t p m with
        | some v => rfl
        | none => exact ih msr hrest
  exact key s.nodes t.nodes hg

/-- The node-body hit-test agrees between two states whose node geometries
and pan offsets agree. -/
theorem over_node_congr (s t : NodeGraphApp) (p : Pos2)
    (hpan : s.pan_offset = t.pan_offset)
    (hg : s.nodes.map nodeGeo = t.nodes.map nodeGeo) :
    s.is_pointer_over_node p = t.is_pointer_over_node p := by
  unfold NodeGraphApp.is_pointer_over_node
  have key : ∀ ns ms : List Node, ns.map nodeGeo = ms.map nodeGeo →
      (ns.any fun node => (s.node_rect_screen node).contains p) =
      (ms.any fun node => (t.node_rect_screen node).contains p) := by
    intro ns
    induction ns with
    | nil =>
      intro ms h
      cases ms with
      | nil => rfl
      | cons m msr => simp at h
    | cons n nsr ih =>
      intro ms h
      cases ms with
      | nil => simp at h
      | cons m msr =>
        simp only [List.map_cons, List.cons.injEq] at h
        obtain ⟨hgeo1, hrest⟩ := h
        rw [List.any_cons, List.any_cons]
        rw [node_rect_congr s t n m hpan hgeo1, ih msr hrest]
  exact key s.nodes t.nodes hg

/-- When no header owns the drag, the node pass preserves every node's
geometry (it can only rewrite content). -/
theorem nodePassAux_geo (i : FrameInput) (pan : Vec2)
    (hnh : ∀ j : ℕ, i.owner ≠ some (DragOwner.header j)) :
    ∀ (idx : ℕ) (ns : List Node) (dl : Option DragLinkState),
    ((nodePassAux i pan idx ns dl).1).map nodeGeo = ns.map nodeGeo := by
  intro idx ns
  induction ns generalizing idx with
  | nil => intro dl; rfl
  | cons n rest ih =>
    intro dl
    rw [show (nodePassAux i pan idx (n :: rest) dl).1 =
      (drawNodeStep i pan idx n dl).1 ::
        (nodePassAux i pan (idx + 1) rest (drawNodeStep i pan idx n dl).2).1 from rfl]
    rw [List.map_cons, List.map_cons, ih (idx + 1)]
    have hpos : (drawNodeStep i pan idx n dl).1.position = n.position := by
      unfold drawNodeStep
      dsimp only
      rw [if_neg fun hc => hnh idx hc.1]
    have h1 : nodeGeo (drawNodeStep i pan idx n dl).1 =
        (n.id, (drawNodeStep i pan idx n dl).1.position, n.size) := rfl
    rw [h1, hpos]
    rfl

/-- The inductive frame invariant: an active canvas pan means the last frame
held the button with the canvas owning the drag, and an active link drag
means the last frame held the button with an output port owning the drag. -/
def ModeInv (s : NodeGraphApp) (prev : FrameInput) : Prop :=
  (s.dragging_canvas = true →
    prev.primary_down = true ∧ prev.owner = some DragOwner.canvas) ∧
  (∀ l : DragLinkState, s.dragging_link = some l →
    prev.primary_down = true ∧ ∃ j : ℕ, prev.owner = some (DragOwner.outputPort j))

/-- The invariant holds initially. -/
theorem modeInv_init : ModeInv NodeGraphApp.default idleInput := by
  constructor
  · intro h
    exact Bool.noConfusion h
  · intro l h
    exact Option.noConfusion h

/-- One valid frame preserves the invariant. -/
theorem modeInv_step (s : NodeGraphApp) (prev i : FrameInput)
    (hv : ValidStep prev i) (hm : ModeInv s prev) : ModeInv (frameStep s i) i := by
  obtain ⟨hpress, hcont⟩ := hv
  obtain ⟨hdc, hlink⟩ := hm
  have hfs : frameStep s i =
      ((deletePass (linkPosPass (nodePass (sidePanelPass s i) i) i)
          i).finish_dragging_link_if_needed i.primary_down
          i.pointer_pos).handle_canvas_pan (canvasResponseOf i) i.primary_down := rfl
  constructor
  · intro htrue
    rw [hfs] at htrue
    obtain ⟨hd, -, hcase⟩ := pan_dc _ _ _ htrue
    refine ⟨hd, ?_⟩
    rcases hcase with ⟨hstarted, -⟩ | ⟨-, hmid⟩
    · have hpo : i.press = true ∧ i.owner = some DragOwner.canvas := by
        simpa [canvasResponseOf, Bool.and_eq_true, decide_eq_true_eq] using hstarted
      exact hpo.2
    · have hmid' : s.dragging_canvas = true := by
        rw [(finish_proj _ _ _).2.2.1, (deletePass_proj _ _).2.2.1,
          (linkPosPass_proj _ _).2.2.2.1, (nodePass_proj _ _).2.2.1,
          (sidePanelPass_proj _ _).1] at hmid
        exact hmid
      obtain ⟨hprevd, hprevo⟩ := hdc hmid'
      rcases hpi : i.press with - | -
      · have ho := hcont hpi hprevd hd
        rw [ho, hprevo]
      · obtain ⟨hpf, -⟩ := hpress hpi
        rw [hpf] at hprevd
        exact absurd hprevd (by simp)
  · intro l htrue
    rw [hfs] at htrue
    rw [(pan_proj _ _ _).2.2.1] at htrue
    obtain ⟨hd, hl5⟩ := finish_link _ _ _ _ htrue
    refine ⟨hd, ?_⟩
    rw [(deletePass_proj _ _).2.2.2.1] at hl5
    obtain ⟨l0, hl0⟩ := linkPosPass_link _ _ _ hl5
    have hl0' : (nodePassAux i (sidePanelPass s i).pan_offset 0
        (sidePanelPass s i).nodes (sidePanelPass s i).dragging_link).2 = some l0 := hl0
    rcases nodePassAux_link i _ 0 _ _ l0 hl0' with ⟨hp, j, hj⟩ | hdl0
    · exact ⟨j, hj⟩
    · rw [(sidePanelPass_proj s i).2] at hdl0
      obtain ⟨hprevd, j, hprevo⟩ := hlink l0 hdl0
      rcases hpi : i.press with - | -
      · have ho := hcont hpi hprevd hd
        exact ⟨j, ho.trans hprevo⟩
      · obtain ⟨hpf, -⟩ := hpress hpi
        rw [hpf] at hprevd
        exact absurd hprevd (by simp)

/-- Running a valid trace preserves the invariant, relative to its last
input. -/
theorem modeInv_run : ∀ (trace : List FrameInput) (s : NodeGraphApp)
    (prev : FrameInput), ModeInv s prev → ValidTrace prev trace →
    ModeInv (runFrames s trace) (trace.getLastD prev) := by
  intro trace
  induction trace with
  | nil =>
    intro s prev h _
    exact h
  | cons i rest ih =>
    intro s prev h hv
    obtain ⟨hstep, hrest⟩ := hv
    rw [show (i :: rest).getLastD prev = rest.getLastD i from List.getLastD_cons ..]
    exact ih (frameStep s i) i (modeInv_step s prev i hstep h) hrest

/-- The default of a list with an appended element is that element. -/
theorem getLastD_append_singleton {α : Type} :
    ∀ (l : List α) (a d : α), (l ++ [a]).getLastD d = a := by
  intro l
  induction l with
  | nil => intro a d; rfl
  | cons x xs ih =>
    intro a d
    rw [List.cons_append, List.getLastD_cons]
    exact ih a x

/-- Canvas pan can only activate on a canvas-owned press over empty canvas:
no node rect under the pointer and no port within hit radius, measured in the
frame's own state. -/
theorem pan_activation (s' : NodeGraphApp) (i' : FrameInput)
    (h0 : s'.dragging_canvas = false)
    (h1 : (frameStep s' i').dragging_canvas = true) :
    i'.press = true ∧ i'.owner = some DragOwner.canvas ∧
    ∃ p, i'.pointer_pos = some p ∧
      (sidePanelPass s' i').is_pointer_over_node p = false ∧
      (sidePanelPass s' i').port_at p = none := by
  have hfs : frameStep s' i' =
      ((deletePass (linkPosPass (nodePass (sidePanelPass s' i') i') i')
          i').finish_dragging_link_if_needed i'.primary_down
          i'.pointer_pos).handle_canvas_pan (canvasResponseOf i') i'.primary_down := rfl
  rw [hfs] at h1
  obtain ⟨-, -, hcase⟩ := pan_dc _ _ _ h1
  rcases hcase with ⟨hstarted, p, hip, hover, hnone⟩ | ⟨-, hmid⟩
  · have hpo : i'.press = true ∧ i'.owner = some DragOwner.canvas := by
      simpa [canvasResponseOf, Bool.and_eq_true, decide_eq_true_eq] using hstarted
    have hnh : ∀ j : ℕ, i'.owner ≠ some (DragOwner.header j) := by
      intro j hc
      rw [hpo.2] at hc
      exact DragOwner.noConfusion (Option.some.inj hc)
    have hpan : ((deletePass (linkPosPass (nodePass (sidePanelPass s' i') i') i')
        i').finish_dragging_link_if_needed i'.primary_down
        i'.pointer_pos).pan_offset = (sidePanelPass s' i').pan_offset := by
      rw [(finish_proj _ _ _).2.1, (deletePass_proj _ _).2.1,
        (linkPosPass_proj _ _).2.2.1, (nodePass_proj _ _).2.1]
    have hg : ((deletePass (linkPosPass (nodePass (sidePanelPass s' i') i') i')
        i').finish_dragging_link_if_needed i'.primary_down
        i'.pointer_pos).nodes.map nodeGeo =
        (sidePanelPass s' i').nodes.map nodeGeo := by
      rw [(finish_proj _ _ _).1, (deletePass_proj _ _).1, (linkPosPass_proj _ _).1]
      exact nodePassAux_geo i' _ hnh 0 _ _
    refine ⟨hpo.1, hpo.2, p, hip, ?_, ?_⟩
    · rw [← over_node_congr _ _ p hpan hg]
      exact hover
    · rw [← port_at_congr _ _ p hpan hg]
      exact hnone
  · have hmid' : s'.dragging_canvas = true := by
      rw [(finish_proj _ _ _).2.2.1, (deletePass_proj _ _).2.2.1,
        (linkPosPass_proj _ _).2.2.2.1, (nodePass_proj _ _).2.2.1,
        (sidePanelPass_proj _ _).1] at hmid
      exact hmid
    rw [h0] at hmid'
    exact absurd hmid' (by simp)

/-- Claim C4: along any egui-consistent frame trace, at most one of the three
drag modes is active after each frame — the canvas-pan flag and an active
link drag never coexist, and a frame whose pointer drag is owned by a node
header ends with both cleared; moreover the canvas-pan flag can only become
set on a press whose position lies over no node rect and within no port's hit
radius. -/
theorem drag_mode_exclusion : ∀ (trace : List FrameInput) (i : FrameInput),
    ValidTrace idleInput (trace ++ [i]) →
    (¬((runFrames NodeGraphApp.default (trace ++ [i])).dragging_canvas = true ∧
      (runFrames NodeGraphApp.default (trace ++ [i])).dragging_link.isSome = true)) ∧
    (∀ j : ℕ, i.owner = some (DragOwner.header j) →
      (runFrames NodeGraphApp.default (trace ++ [i])).dragging_canvas = false ∧
      (runFrames NodeGraphApp.default (trace ++ [i])).dragging_link = none) ∧
    (∀ (s' : NodeGraphApp) (i' : FrameInput), s'.dragging_canvas = false →
      (frameStep s' i').dragging_canvas = true →
      i'.press = true ∧ i'.owner = some DragOwner.canvas ∧
      ∃ p, i'.pointer_pos = some p ∧
        (sidePanelPass s' i').is_pointer_over_node p = false ∧
        (sidePanelPass s' i').port_at p = none) := by
  intro trace i hv
  have hinv := modeInv_run (trace ++ [i]) NodeGraphApp.default idleInput modeInv_init hv
  rw [getLastD_append_singleton trace i idleInput] at hinv
  obtain ⟨hdc, hlink⟩ := hinv
  refine ⟨?_, ?_, fun s' i' h0 h1 => pan_activation s' i' h0 h1⟩
  · rintro ⟨h1, h2⟩
    obtain ⟨-, ho1⟩ := hdc h1
    obtain ⟨l, hl⟩ := Option.isSome_iff_exists.mp h2
    obtain ⟨-, j, ho2⟩ := hlink l hl
    rw [ho1] at ho2
    exact DragOwner.noConfusion (Option.some.inj ho2)
  · intro j hj
    constructor
    · rcases hb : (runFrames NodeGraphApp.default (trace ++ [i])).dragging_canvas with - | -
      · rfl
      · obtain ⟨-, ho⟩ := hdc hb
        rw [hj] at ho
        exact absurd (Option.some.inj ho) (by intro hx; exact DragOwner.noConfusion hx)
    · rcases hb : (runFrames NodeGraphApp.default (trace ++ [i])).dragging_link with - | l
      · rfl
      · obtain ⟨-, j', ho⟩ := hlink l hb
        rw [hj] at ho
        exact absurd (Option.some.inj ho) (by intro hx; exact DragOwner.noConfusion hx)

/-- Witness for claim C4 at a concrete input: the one-frame trace consisting
of the idle input is egui-consistent, and the mutual-exclusion conclusions
hold after running it from the initial state. -/
theorem drag_mode_exclusion_witness :
    (¬((runFrames NodeGraphApp.default ([] ++ [idleInput])).dragging_canvas = true ∧
      (runFrames NodeGraphApp.default ([] ++ [idleInput])).dragging_link.isSome = true)) ∧
    (∀ j : ℕ, idleInput.owner = some (DragOwner.header j) →
      (runFrames NodeGraphApp.default ([] ++ [idleInput])).dragging_canvas = false ∧
      (runFrames NodeGraphApp.default ([] ++ [idleInput])).dragging_link = none) ∧
    (∀ (s' : NodeGraphApp) (i' : FrameInput), s'.dragging_canvas = false →
      (frameStep s' i').dragging_canvas = true →
      i'.press = true ∧ i'.owner = some DragOwner.canvas ∧
      ∃ p, i'.pointer_pos = some p ∧
        (sidePanelPass s' i').is_pointer_over_node p = false ∧
        (sidePanelPass s' i').port_at p = none) :=
  drag_mode_exclusion [] idleInput
    ⟨⟨fun h => absurd h (by decide), fun _ h _ => absurd h (by decide)⟩, trivial⟩

end NodeGraph
